import Mathlib

/-!
# UniquePtr: an exclusive-ownership handle

Shallow embedding of `src/unique_ptr.cpp`.

* A raw pointer is an address (`Nat`); address `0` is `nullptr`.
* A handle is an object living in a store (`World.handles`); the C++ references
  `this` and `other` are indices into that store, so that `this` and `other`
  may denote the same object, exactly as in C++.
* Calling a deleter is an effect outside the handle: every call is appended to
  `World.log` together with the handle through which it was made, the deleter
  value, the argument, and the pointer the handle stored at that moment. The
  call runs `operator()` on the stored, non-const deleter object and may leave
  it in another state: `Deleter.call`.
* `mv : D → D` is the state in which the move constructor / move assignment of
  the deleter type leaves its source (`std::move`, `std::forward<Deleter>`).
-/

namespace UniquePointer

/-- A raw pointer `T*`: an address. -/
abbrev Ptr := Nat

/-- The null pointer. -/
def nullptr : Ptr := 0

/-- A C++ reference to a handle object: its index in the store. -/
abbrev Ref := Nat

/-- Modelled from the spec: `compressed_pair.h` is not part of the sources.
Paired Storage is a two-slot container (first, second) with independent
accessors for each slot; it never calls the deleter itself. -/
structure CompressedPair (F S : Type) where
  first : F
  second : S
deriving DecidableEq

/-- Accessor `GetFirst()` of the paired storage. -/
def CompressedPair.GetFirst {F S : Type} (p : CompressedPair F S) : F := p.first

/-- Accessor `GetSecond()` of the paired storage. -/
def CompressedPair.GetSecond {F S : Type} (p : CompressedPair F S) : S := p.second

/-- The handle `UniquePtr<T, Deleter>` (and `UniquePtr<T[], Deleter>`): its only
field is `CompressedPair<T*, Deleter> own_`. -/
structure UniquePtr (D : Type) where
  own_ : CompressedPair Ptr D
deriving DecidableEq

/-- One call `deleter(arg)`, made through the handle object `handle`, whose stored
pointer was `seen` at the moment of the call. -/
structure Call (D : Type) where
  handle : Ref
  deleter : D
  arg : Ptr
  seen : Ptr
deriving DecidableEq

/-- The program state: the handle objects (slot `none`: no live object there) and
the deleter calls made so far. -/
structure World (D : Type) where
  handles : List (Option (UniquePtr D))
  log : List (Call D)
deriving DecidableEq

variable {D : Type}

/-- Read the handle object a reference denotes (`none`: no live object). -/
def World.deref (w : World D) (r : Ref) : Option (UniquePtr D) :=
  (w.handles[r]?).join

/-- Overwrite the handle object a reference denotes. -/
def World.store (w : World D) (r : Ref) (h : UniquePtr D) : World D :=
  { w with handles := w.handles.set r (some h) }

/-- Read `r.own_.GetFirst()`. -/
def World.GetFirst (w : World D) (r : Ref) : Option Ptr :=
  (w.deref r).map (fun h => h.own_.GetFirst)

/-- Read `r.own_.GetSecond()`. -/
def World.GetSecond (w : World D) (r : Ref) : Option D :=
  (w.deref r).map (fun h => h.own_.GetSecond)

/-- Write `r.own_.GetFirst() = p`. -/
def World.setFirst (w : World D) (r : Ref) (p : Ptr) : Option (World D) :=
  (w.deref r).map (fun h => w.store r { own_ := { h.own_ with first := p } })

/-- Write `r.own_.GetSecond() = d`. -/
def World.setSecond (w : World D) (r : Ref) (d : D) : Option (World D) :=
  (w.deref r).map (fun h => w.store r { own_ := { h.own_ with second := d } })

/-- Append one deleter call to the log. -/
def World.record (w : World D) (c : Call D) : World D :=
  { w with log := w.log ++ [c] }

/-- The template parameter `Deleter`: a type with `operator()(T*)`.
`call d arg seen` is the state of the deleter object `d` after `d(arg)` has run
while the handle that stores `d` held the pointer `seen`; a deleter that keeps
no state, or does not change it, has `call d arg seen = d`. -/
class Deleter (D : Type) where
  call : D → Ptr → Ptr → D

/-- The call `r.own_.GetSecond()(arg)`: `operator()` runs on the deleter object
stored in the handle, which is left in the state `Deleter.call` gives. -/
def World.invoke [Deleter D] (w : World D) (r : Ref) (arg : Ptr) : Option (World D) :=
  (w.deref r).map (fun h =>
    (w.record
      { handle := r, deleter := h.own_.GetSecond, arg := arg, seen := h.own_.GetFirst }).store r
      { own_ := { h.own_ with
                  second := Deleter.call h.own_.GetSecond arg h.own_.GetFirst } })

/-- A new handle object comes to life; its reference is the next free index. -/
def World.alloc (w : World D) (h : UniquePtr D) : Ref × World D :=
  (w.handles.length, { w with handles := w.handles ++ [some h] })

/-- The lifetime of a handle object ends. -/
def World.free (w : World D) (r : Ref) : World D :=
  { w with handles := w.handles.set r none }

namespace UniquePtr

/-- `T* Get() const`. -/
def Get (h : UniquePtr D) : Ptr := h.own_.GetFirst

/-- `const Deleter& GetDeleter() const`. -/
def GetDeleter (h : UniquePtr D) : D := h.own_.GetSecond

/-- `explicit operator bool() const`. -/
def operatorBool (h : UniquePtr D) : Bool := decide (h.own_.GetFirst ≠ nullptr)

/-- `UniquePtr(T* ptr, Deleter1&& deleter)`. -/
def ctor (w : World D) (ptr : Ptr) (deleter : D) : Ref × World D :=
  w.alloc { own_ := { first := ptr, second := deleter } }

/-- `T* Release()`. -/
def Release (w : World D) (this : Ref) : Option (Ptr × World D) := do
  let alive ← w.GetFirst this
  let w ← w.setFirst this nullptr
  pure (alive, w)

/-- `UniquePtr(UniquePtr&& other)`:
`own_(other.Release(), std::move(other.GetDeleter()))`. -/
def moveCtor (mv : D → D) (w : World D) (other : Ref) : Option (Ref × World D) := do
  let (p, w) ← Release w other
  let d ← w.GetSecond other
  let w ← w.setSecond other (mv d)
  pure (w.alloc { own_ := { first := p, second := d } })

/-- `UniquePtr(UniquePtr<U, E>&& other)`, with `conv` the conversion of the moved
deleter `E&&` to `Deleter`; the conversion `U*` to `T*` keeps the address. -/
def moveCtorFrom (mv : D → D) (conv : D → D) (w : World D) (other : Ref) :
    Option (Ref × World D) := do
  let (p, w) ← Release w other
  let d ← w.GetSecond other
  let w ← w.setSecond other (mv d)
  pure (w.alloc { own_ := { first := p, second := conv d } })

/-- `UniquePtr& operator=(UniquePtr&& other)`. -/
def moveAssign [Deleter D] (mv : D → D) (w : World D) (this other : Ref) : Option (World D) := do
  let a ← w.GetFirst this
  let b ← w.GetFirst other
  if a = b then
    pure w
  else
    let w ← if a ≠ nullptr then w.invoke this a else pure w
    let p ← w.GetFirst other
    let w ← w.setFirst this p
    let d ← w.GetSecond other
    let w ← w.setSecond other (mv d)
    let w ← w.setSecond this d
    w.setFirst other nullptr

/-- `UniquePtr& operator=(std::nullptr_t)`. -/
def assignNull [Deleter D] (w : World D) (this : Ref) : Option (World D) := do
  let a ← w.GetFirst this
  let w ← if a ≠ nullptr then w.invoke this a else pure w
  w.setFirst this nullptr

/-- `~UniquePtr()`; afterwards the object is no longer alive. -/
def dtor [Deleter D] (w : World D) (this : Ref) : Option (World D) := do
  let a ← w.GetFirst this
  let w ← if a ≠ nullptr then w.invoke this a else pure w
  pure (w.free this)

/-- `void Reset(T* ptr = nullptr)`; the local `to` of the source is `prev`. -/
def Reset [Deleter D] (w : World D) (this : Ref) (ptr : Ptr) : Option (World D) := do
  let prev ← w.GetFirst this
  let w ← w.setFirst this ptr
  if prev ≠ nullptr then w.invoke this prev else pure w

/-- `void Swap(UniquePtr& other)`: `std::swap(own_, other.own_)`. -/
def Swap (w : World D) (this other : Ref) : Option (World D) := do
  let a ← w.deref this
  let b ← w.deref other
  pure ((w.store this { own_ := b.own_ }).store other { own_ := a.own_ })

end UniquePtr

/-! The partial specialization `UniquePtr<T[], Deleter>` (lines 110-212 of the
source) restates every member over the same field `own_`. -/

namespace UniquePtrArray

/-- `T* Release()` of the array specialization. -/
def Release (w : World D) (this : Ref) : Option (Ptr × World D) := do
  let alive ← w.GetFirst this
  let w ← w.setFirst this nullptr
  pure (alive, w)

/-- `UniquePtr& operator=(UniquePtr&& other)` of the array specialization. -/
def moveAssign [Deleter D] (mv : D → D) (w : World D) (this other : Ref) : Option (World D) := do
  let a ← w.GetFirst this
  let b ← w.GetFirst other
  if a = b then
    pure w
  else
    let w ← if a ≠ nullptr then w.invoke this a else pure w
    let p ← w.GetFirst other
    let w ← w.setFirst this p
    let d ← w.GetSecond other
    let w ← w.setSecond other (mv d)
    let w ← w.setSecond this d
    w.setFirst other nullptr

/-- `~UniquePtr()` of the array specialization. -/
def dtor [Deleter D] (w : World D) (this : Ref) : Option (World D) := do
  let a ← w.GetFirst this
  let w ← if a ≠ nullptr then w.invoke this a else pure w
  pure (w.free this)

/-- `void Reset(T* ptr = nullptr)` of the array specialization. -/
def Reset [Deleter D] (w : World D) (this : Ref) (ptr : Ptr) : Option (World D) := do
  let prev ← w.GetFirst this
  let w ← w.setFirst this ptr
  if prev ≠ nullptr then w.invoke this prev else pure w

/-- `void Swap(UniquePtr& other)` of the array specialization. -/
def Swap (w : World D) (this other : Ref) : Option (World D) := do
  let a ← w.deref this
  let b ← w.deref other
  pure ((w.store this { own_ := b.own_ }).store other { own_ := a.own_ })

end UniquePtrArray

/-! ## Sequences of operations -/

/-- One operation of a client program on the handles of the store. -/
inductive Op (D : Type) where
  | moveCtor (conv : D → D) (other : Ref)
  | moveAssign (this other : Ref)
  | assignNull (this : Ref)
  | release (this : Ref)
  | swap (this other : Ref)
  | reset (this : Ref) (ptr : Ptr)
  | destroy (this : Ref)

/-- The operations that only move ownership between handles: move-construction,
move-assignment, null-assignment and `Swap`. -/
def Op.isTransfer : Op D → Bool
  | .moveCtor _ _ => true
  | .moveAssign _ _ => true
  | .assignNull _ => true
  | .swap _ _ => true
  | _ => false

/-- Run one operation; `none` when it uses a reference to no live handle. -/
def step [Deleter D] (mv : D → D) (w : World D) : Op D → Option (World D)
  | .moveCtor conv other => (UniquePtr.moveCtorFrom mv conv w other).map Prod.snd
  | .moveAssign this other => UniquePtr.moveAssign mv w this other
  | .assignNull this => UniquePtr.assignNull w this
  | .release this => (UniquePtr.Release w this).map Prod.snd
  | .swap this other => UniquePtr.Swap w this other
  | .reset this ptr => UniquePtr.Reset w this ptr
  | .destroy this => UniquePtr.dtor w this

/-- Run a sequence of operations from left to right. -/
def run [Deleter D] (mv : D → D) (w : World D) : List (Op D) → Option (World D)
  | [] => some w
  | op :: ops => (step mv w op).bind (fun w1 => run mv w1 ops)

/-- Number of live handles whose stored pointer is `a`. -/
def World.owners (w : World D) (a : Ptr) : Nat :=
  w.handles.countP (fun s => s.any (fun h => decide (h.Get = a)))

/-- Number of deleter calls made so far with argument `a`. -/
def World.releases (w : World D) (a : Ptr) : Nat :=
  w.log.countP (fun c => decide (c.arg = a))

/-- The argument of a `Reset` is null, or an address that no live handle holds
and that has never been passed to a deleter. -/
def Op.fresh (w : World D) : Op D → Bool
  | .reset _ ptr => decide (ptr = nullptr) || (w.owners ptr == 0 && w.releases ptr == 0)
  | _ => true

/-- Every `Reset` of the sequence has a fresh argument in the state in which it
is run. -/
def ResetsFresh [Deleter D] (mv : D → D) : World D → List (Op D) → Bool
  | _, [] => true
  | w, op :: ops =>
    op.fresh w &&
      match step mv w op with
      | some w1 => ResetsFresh mv w1 ops
      | none => true

/-- Destroy the live handles among the references below `n`, the youngest
first (the order in which a scope ends). -/
def destroyBelow [Deleter D] : Nat → World D → Option (World D)
  | 0, w => some w
  | n + 1, w =>
    (if (w.deref n).isSome then UniquePtr.dtor w n else some w).bind (destroyBelow n)

/-- Destroy every live handle. -/
def destroyAll [Deleter D] (w : World D) : Option (World D) :=
  destroyBelow w.handles.length w

/-- Deleters identified by numbers: calling one leaves it as it is. -/
instance : Deleter Nat where
  call := fun d _ _ => d

/-- A counting deleter: its state is the number of calls made to it. -/
structure CountDel where
  count : Nat
deriving DecidableEq

/-- Each call of a counting deleter adds one to its count. -/
instance : Deleter CountDel where
  call := fun d _ _ => { count := d.count + 1 }

/-- A deleter that observes its handle: its state is the pointer it last saw
in `H.Get()` while it was being called. -/
structure ObsDel where
  observed : Ptr
deriving DecidableEq

/-- Each call of an observing deleter records what the handle stored. -/
instance : Deleter ObsDel where
  call := fun _ _ seen => { observed := seen }

/-- A store with one handle that owns address 7 through a counting deleter. -/
def countWorld : World CountDel :=
  { handles := [some { own_ := { first := 7, second := { count := 0 } } }], log := [] }

/-- A store with one handle that owns address 7 through an observing deleter. -/
def obsWorld : World ObsDel :=
  { handles := [some { own_ := { first := 7, second := { observed := 0 } } }], log := [] }

/-- A store with three handles: two owning (addresses 7 and 9) and one empty;
deleters are identified by numbers. -/
def sampleWorld : World Nat :=
  { handles := [some { own_ := { first := 7, second := 1 } },
                some { own_ := { first := 9, second := 2 } },
                some { own_ := { first := 0, second := 3 } }],
    log := [] }

/-- A deleter type whose moved-from state is the value `0`. -/
def sampleMv : Nat → Nat := fun _ => 0

/-- A store in which two distinct handles hold the same address 7. -/
def aliasWorld : World Nat :=
  { handles := [some { own_ := { first := 7, second := 1 } },
                some { own_ := { first := 7, second := 2 } }],
    log := [] }

/-- A client program over `sampleWorld` that uses every operation. -/
def sampleOps : List (Op Nat) :=
  [.moveCtor id 0, .moveAssign 1 3, .release 2, .reset 2 5, .swap 0 1, .assignNull 1,
   .reset 3 0, .destroy 3, .moveAssign 2 2, .reset 0 11]

/-- A client program over `sampleWorld` that only moves ownership around. -/
def sampleTransfers : List (Op Nat) :=
  [.moveCtor id 0, .moveAssign 2 1, .swap 0 2, .assignNull 0, .moveAssign 3 3]


/-! ## Remaining members of both specializations -/

/-- Conversion of an integer argument to a 32-bit `int` parameter: the value
modulo `2^32` in the range from `-2^31` to `2^31 - 1`; a value already in that
range is kept. -/
def toInt32 (i : Int) : Int := (i + 2 ^ 31) % 2 ^ 32 - 2 ^ 31

/-- A call of a `const` member function on the handle object `r`: the body reads
the object and returns a value. -/
def World.callConst {α : Type} (f : UniquePtr D → α) (w : World D) (r : Ref) :
    Option (α × World D) :=
  (w.deref r).map (fun h => (f h, w))

/-- `explicit UniquePtr(T* ptr = nullptr)`: the paired storage is
default-constructed (null pointer, default-constructed deleter `dflt`), then
`own_.GetFirst() = ptr`. -/
def UniquePtr.ctorDefault (dflt : D) (w : World D) (ptr : Ptr) : Option (Ref × World D) := do
  let (r, w) := w.alloc { own_ := { first := nullptr, second := dflt } }
  let w ← w.setFirst r ptr
  pure (r, w)

namespace UniquePtrArray

/-- `explicit UniquePtr(T* ptr = nullptr)` of the array specialization. -/
def ctorDefault (dflt : D) (w : World D) (ptr : Ptr) : Option (Ref × World D) := do
  let (r, w) := w.alloc { own_ := { first := nullptr, second := dflt } }
  let w ← w.setFirst r ptr
  pure (r, w)

/-- `UniquePtr(T* ptr, Deleter1&& deleter)` of the array specialization. -/
def ctor (w : World D) (ptr : Ptr) (deleter : D) : Ref × World D :=
  w.alloc { own_ := { first := ptr, second := deleter } }

/-- `UniquePtr(UniquePtr&& other)` of the array specialization. -/
def moveCtor (mv : D → D) (w : World D) (other : Ref) : Option (Ref × World D) := do
  let (p, w) ← Release w other
  let d ← w.GetSecond other
  let w ← w.setSecond other (mv d)
  pure (w.alloc { own_ := { first := p, second := d } })

/-- `UniquePtr(UniquePtr<U, E>&& other)` of the array specialization. -/
def moveCtorFrom (mv : D → D) (conv : D → D) (w : World D) (other : Ref) :
    Option (Ref × World D) := do
  let (p, w) ← Release w other
  let d ← w.GetSecond other
  let w ← w.setSecond other (mv d)
  pure (w.alloc { own_ := { first := p, second := conv d } })

/-- `UniquePtr& operator=(std::nullptr_t)` of the array specialization. -/
def assignNull [Deleter D] (w : World D) (this : Ref) : Option (World D) := do
  let a ← w.GetFirst this
  let w ← if a ≠ nullptr then w.invoke this a else pure w
  w.setFirst this nullptr

/-- `T* Get() const` of the array specialization. -/
def Get (h : UniquePtr D) : Ptr := h.own_.GetFirst

/-- `const Deleter& GetDeleter() const` of the array specialization. -/
def GetDeleter (h : UniquePtr D) : D := h.own_.GetSecond

/-- `explicit operator bool() const` of the array specialization. -/
def operatorBool (h : UniquePtr D) : Bool := decide (h.own_.GetFirst ≠ nullptr)

/-- `T& operator[](int i)` and its `const` overload: the reference
`own_.GetFirst()[i]`, that is the cell `i` elements after the stored pointer,
where the argument has been converted to the 32-bit parameter `int i`. -/
def operatorIndex (h : UniquePtr D) (i : Int) : Ptr :=
  (((h.own_.GetFirst : Nat) : Int) + toInt32 i).toNat

end UniquePtrArray

/-- The cells that hold array elements, addressed in units of one element. -/
abbrev Mem (T : Type) := Ptr → T

/-- Assignment through a reference to the cell `addr`. -/
def Mem.write {T : Type} (m : Mem T) (addr : Ptr) (v : T) : Mem T :=
  fun a => if a = addr then v else m a

/-- The statement `H[i] = v` on the array handle `this`. -/
def UniquePtrArray.indexWrite {T : Type} (w : World D) (m : Mem T) (this : Ref) (i : Int)
    (v : T) : Option (World D × Mem T) :=
  (w.deref this).map (fun h => (w, m.write (UniquePtrArray.operatorIndex h i) v))

/-- The expression `H[i]` read as a value on the array handle `this`. -/
def UniquePtrArray.indexRead {T : Type} (w : World D) (m : Mem T) (this : Ref) (i : Int) :
    Option T :=
  (w.deref this).map (fun h => m (UniquePtrArray.operatorIndex h i))

/-- The deleter call without the observation `seen`: which handle called which
deleter on which argument. -/
def Call.invocation (c : Call D) : Ref × D × Ptr := (c.handle, c.deleter, c.arg)

/-- A store with one array handle whose array starts at address 100. -/
def arrayWorld : World Nat :=
  { handles := [some { own_ := { first := 100, second := 1 } }], log := [] }

/-- Memory in which every cell holds 0. -/
def zeroMem : Mem Int := fun _ => 0

/-- A store with two empty handles that carry different deleters. -/
def emptiesWorld : World Nat :=
  { handles := [some { own_ := { first := 0, second := 1 } },
                some { own_ := { first := 0, second := 2 } }],
    log := [] }


/-! ## The store: reading and writing handle objects -/
theorem World.deref_eq_some {w : World D} {r : Ref} {h : UniquePtr D} :
    w.deref r = some h ↔ w.handles[r]? = some (some h) := by
  unfold World.deref
  cases hq : w.handles[r]? with
  | none => simp
  | some o => cases o <;> simp

theorem World.deref_lt {w : World D} {r : Ref} {h : UniquePtr D}
    (hr : w.deref r = some h) : r < w.handles.length := by
  rw [World.deref_eq_some] at hr
  exact (List.getElem?_eq_some_iff.1 hr).1

@[simp] theorem World.deref_store (w : World D) (r r1 : Ref) (h : UniquePtr D) :
    (w.store r h).deref r1 =
      if r = r1 then (if r < w.handles.length then some h else none) else w.deref r1 := by
  unfold World.deref World.store
  simp only [List.getElem?_set]
  split <;> [split <;> rfl; rfl]

@[simp] theorem World.log_store (w : World D) (r : Ref) (h : UniquePtr D) :
    (w.store r h).log = w.log := rfl

@[simp] theorem World.length_store (w : World D) (r : Ref) (h : UniquePtr D) :
    (w.store r h).handles.length = w.handles.length := by
  simp [World.store]

@[simp] theorem World.deref_record (w : World D) (c : Call D) (r : Ref) :
    (w.record c).deref r = w.deref r := rfl

@[simp] theorem World.handles_record (w : World D) (c : Call D) :
    (w.record c).handles = w.handles := rfl

@[simp] theorem World.log_record (w : World D) (c : Call D) :
    (w.record c).log = w.log ++ [c] := rfl

@[simp] theorem World.store_store (w : World D) (r : Ref) (x y : UniquePtr D) :
    (w.store r x).store r y = w.store r y := by
  simp [World.store]

theorem World.store_comm (w : World D) {r r1 : Ref} (x y : UniquePtr D) (hne : r ≠ r1) :
    (w.store r x).store r1 y = (w.store r1 y).store r x := by
  simp [World.store, List.set_comm _ _ _ hne]

theorem World.store_store_store (w : World D) {r r1 : Ref} (x y z : UniquePtr D)
    (hne : r ≠ r1) : ((w.store r x).store r1 y).store r z = (w.store r z).store r1 y := by
  rw [World.store_comm _ x y hne, World.store_store, World.store_comm _ y z hne.symm]

theorem World.store_record (w : World D) (c : Call D) (r : Ref) (x : UniquePtr D) :
    (w.record c).store r x = (w.store r x).record c := rfl

theorem World.free_store (w : World D) (r : Ref) (x : UniquePtr D) :
    (w.store r x).free r = w.free r := by
  simp [World.store, World.free]

theorem UniquePtr.Release_eq {w : World D} {this : Ref} {h : UniquePtr D}
    (hr : w.deref this = some h) :
    UniquePtr.Release w this
      = some (h.own_.first, w.store this { own_ := { first := nullptr, second := h.own_.second } }) := by
  simp [UniquePtr.Release, World.GetFirst, World.setFirst, hr, CompressedPair.GetFirst]

theorem UniquePtr.moveAssign_same [Deleter D] {mv : D → D} {w : World D} {this other : Ref}
    {a b : UniquePtr D} (ha : w.deref this = some a) (hb : w.deref other = some b)
    (he : a.own_.first = b.own_.first) :
    UniquePtr.moveAssign mv w this other = some w := by
  simp [UniquePtr.moveAssign, World.GetFirst, ha, hb, CompressedPair.GetFirst, he]

theorem ne_of_deref {w : World D} {this other : Ref}
    {a b : UniquePtr D} (ha : w.deref this = some a) (hb : w.deref other = some b)
    (he : a.own_.first ≠ b.own_.first) : this ≠ other := by
  rintro rfl
  rw [ha] at hb
  cases hb
  exact he rfl

theorem UniquePtr.moveAssign_diff [Deleter D] {mv : D → D} {w : World D} {this other : Ref}
    {a b : UniquePtr D} (ha : w.deref this = some a) (hb : w.deref other = some b)
    (he : a.own_.first ≠ b.own_.first) :
    UniquePtr.moveAssign mv w this other = some
      (((if a.own_.first ≠ nullptr then
          w.record { handle := this, deleter := a.own_.second, arg := a.own_.first, seen := a.own_.first }
         else w).store this { own_ := { first := b.own_.first, second := b.own_.second } }).store
          other { own_ := { first := nullptr, second := mv b.own_.second } }) := by
  have hne : this ≠ other := ne_of_deref ha hb he
  have h1 := World.deref_lt ha
  have h2 := World.deref_lt hb
  have hne2 := Ne.symm hne
  by_cases hz : a.own_.first = nullptr
  · have he2 : ¬ (nullptr = b.own_.first) := hz ▸ he
    simp [UniquePtr.moveAssign, World.GetFirst, World.GetSecond, World.setFirst, World.setSecond, World.invoke, ha, hb, CompressedPair.GetFirst, CompressedPair.GetSecond, he2, hz, hne, hne2, h1, h2, World.store_store_store]
  · simp [UniquePtr.moveAssign, World.GetFirst, World.GetSecond, World.setFirst, World.setSecond, World.invoke, ha, hb, CompressedPair.GetFirst, CompressedPair.GetSecond, he, hz, hne, hne2, h1, h2, World.store_store_store]

theorem UniquePtr.moveCtorFrom_eq {mv conv : D → D} {w : World D} {other : Ref}
    {h : UniquePtr D} (hr : w.deref other = some h) :
    UniquePtr.moveCtorFrom mv conv w other = some
      ((w.store other { own_ := { first := nullptr, second := mv h.own_.second } }).alloc
        { own_ := { first := h.own_.first, second := conv h.own_.second } }) := by
  have h1 := World.deref_lt hr
  simp [UniquePtr.moveCtorFrom, UniquePtr.Release_eq hr, World.GetSecond, World.setSecond,
    CompressedPair.GetSecond, h1]

theorem UniquePtr.assignNull_eq [Deleter D] {w : World D} {this : Ref} {a : UniquePtr D}
    (ha : w.deref this = some a) :
    UniquePtr.assignNull w this = some
      ((if a.own_.first ≠ nullptr then
          w.record { handle := this, deleter := a.own_.second, arg := a.own_.first, seen := a.own_.first }
         else w).store this
          { own_ := { first := nullptr,
                      second := if a.own_.first ≠ nullptr then
                        Deleter.call a.own_.second a.own_.first a.own_.first
                        else a.own_.second } }) := by
  have h1 := World.deref_lt ha
  by_cases hz : a.own_.first = nullptr <;>
    simp [UniquePtr.assignNull, World.GetFirst, World.setFirst, World.invoke, ha,
      CompressedPair.GetFirst, CompressedPair.GetSecond, hz, h1]

theorem UniquePtr.dtor_eq [Deleter D] {w : World D} {this : Ref} {a : UniquePtr D}
    (ha : w.deref this = some a) :
    UniquePtr.dtor w this = some
      ((if a.own_.first ≠ nullptr then
          w.record { handle := this, deleter := a.own_.second, arg := a.own_.first, seen := a.own_.first }
         else w).free this) := by
  by_cases hz : a.own_.first = nullptr <;>
    simp [UniquePtr.dtor, World.GetFirst, World.invoke, ha,
      CompressedPair.GetFirst, CompressedPair.GetSecond, hz, World.free_store]

theorem UniquePtr.Reset_eq [Deleter D] {w : World D} {this : Ref} {a : UniquePtr D} (ptr : Ptr)
    (ha : w.deref this = some a) :
    UniquePtr.Reset w this ptr = some
      (if a.own_.first ≠ nullptr then
        (w.store this
          { own_ := { first := ptr, second := Deleter.call a.own_.second a.own_.first ptr } }).record
          { handle := this, deleter := a.own_.second, arg := a.own_.first, seen := ptr }
       else w.store this { own_ := { first := ptr, second := a.own_.second } }) := by
  have h1 := World.deref_lt ha
  by_cases hz : a.own_.first = nullptr <;>
    simp [UniquePtr.Reset, World.GetFirst, World.setFirst, World.invoke, ha,
      CompressedPair.GetFirst, CompressedPair.GetSecond, hz, h1, World.store_record]

theorem UniquePtr.Swap_eq {w : World D} {this other : Ref} {a b : UniquePtr D}
    (ha : w.deref this = some a) (hb : w.deref other = some b) :
    UniquePtr.Swap w this other = some
      ((w.store this { own_ := b.own_ }).store other { own_ := a.own_ }) := by
  simp [UniquePtr.Swap, ha, hb]

theorem UniquePtrArray.Release_eq_single :
    @UniquePtrArray.Release D = @UniquePtr.Release D := rfl

theorem UniquePtrArray.moveAssign_eq_single [Deleter D] :
    @UniquePtrArray.moveAssign D _ = @UniquePtr.moveAssign D _ := rfl

theorem UniquePtrArray.dtor_eq_single [Deleter D] :
    @UniquePtrArray.dtor D _ = @UniquePtr.dtor D _ := rfl

theorem UniquePtrArray.Reset_eq_single [Deleter D] :
    @UniquePtrArray.Reset D _ = @UniquePtr.Reset D _ := rfl

theorem UniquePtrArray.Swap_eq_single :
    @UniquePtrArray.Swap D = @UniquePtr.Swap D := rfl

@[simp] theorem World.deref_free (w : World D) (r r1 : Ref) :
    (w.free r).deref r1 = if r = r1 then none else w.deref r1 := by
  unfold World.deref World.free
  simp only [List.getElem?_set]
  split <;> [split <;> rfl; rfl]

@[simp] theorem World.log_free (w : World D) (r : Ref) : (w.free r).log = w.log := rfl

@[simp] theorem World.length_free (w : World D) (r : Ref) :
    (w.free r).handles.length = w.handles.length := by
  simp [World.free]

@[simp] theorem World.log_alloc (w : World D) (h : UniquePtr D) :
    (w.alloc h).2.log = w.log := rfl

@[simp] theorem World.fst_alloc (w : World D) (h : UniquePtr D) :
    (w.alloc h).1 = w.handles.length := rfl

theorem World.deref_alloc (w : World D) (h : UniquePtr D) (r : Nat) :
    (w.alloc h).2.deref r =
      if r = w.handles.length then some h else w.deref r := by
  unfold World.deref World.alloc
  rcases Nat.lt_trichotomy r w.handles.length with h1 | h1 | h1
  · have h2 : r ≠ w.handles.length := Nat.ne_of_lt h1
    simp [List.getElem?_append_left h1, h2]
  · subst h1
    simp
  · have h2 : r ≠ w.handles.length := Nat.ne_of_gt h1
    have h3 : (w.handles ++ [some h])[r]? = none :=
      List.getElem?_eq_none (by simp; omega)
    have h4 : w.handles[r]? = none := List.getElem?_eq_none (by omega)
    simp [h2, h3, h4]

theorem World.deref_length (w : World D) : w.deref w.handles.length = none := by
  unfold World.deref
  simp

/-! ## Single operations -/

/-- C1: move-construction (same-type `moveCtor`, and cross-type `moveCtorFrom` with
any deleter conversion `conv`) from a live handle `other` holding pointer `p`
creates a new handle whose `Get()` is `p`, leaves `other` with `Get()` null and
boolean test false, and makes no deleter call (the log is unchanged). -/
theorem move_construct_empties_source (mv conv : D → D) (w : World D) (other : Ref)
    (h1 : UniquePtr D) (hlive : w.deref other = some h1) :
    UniquePtr.moveCtor mv w other = UniquePtr.moveCtorFrom mv id w other ∧
    ∃ r w1, UniquePtr.moveCtorFrom mv conv w other = some (r, w1) ∧
      w.deref r = none ∧
      (∃ h2, w1.deref r = some h2 ∧ h2.Get = h1.Get ∧ h2.GetDeleter = conv h1.GetDeleter) ∧
      (∃ h1', w1.deref other = some h1' ∧ h1'.Get = nullptr ∧ h1'.operatorBool = false) ∧
      w1.log = w.log := by
  have hlt : other < w.handles.length := World.deref_lt hlive
  have hne : other ≠ w.handles.length := Nat.ne_of_lt hlt
  refine ⟨rfl, w.handles.length,
    ((w.store other { own_ := { first := nullptr, second := mv h1.own_.second } }).alloc
        { own_ := { first := h1.own_.first, second := conv h1.own_.second } }).2, ?_, ?_, ?_, ?_, ?_⟩
  · rw [UniquePtr.moveCtorFrom_eq hlive]
    simp [World.alloc]
  · exact World.deref_length w
  · refine ⟨{ own_ := { first := h1.own_.first, second := conv h1.own_.second } }, ?_, rfl, rfl⟩
    rw [World.deref_alloc]
    simp
  · refine ⟨{ own_ := { first := nullptr, second := mv h1.own_.second } }, ?_, rfl, ?_⟩
    · rw [World.deref_alloc]
      simp [hne, hlt]
    · simp [UniquePtr.operatorBool, CompressedPair.GetFirst]
  · simp

/-- C1 at a concrete store: move-constructing from handle 0 of `sampleWorld`. -/
theorem move_construct_empties_source_witness :
    sampleWorld.deref 0 = some { own_ := { first := 7, second := 1 } } ∧
    ∃ r w1, UniquePtr.moveCtorFrom sampleMv id sampleWorld 0 = some (r, w1) ∧
      w1.log = sampleWorld.log :=
  ⟨rfl, by
    obtain ⟨_, r, w1, h, _, _, _, hl⟩ :=
      move_construct_empties_source sampleMv id sampleWorld 0 _ rfl
    exact ⟨r, w1, h, hl⟩⟩

/-- C2, as amended: for live handles `this` (H2) and `other` (H1), `H2 = move(H1)`
returns, and afterwards `H2.Get()` is the pointer H1 held before; H1 is empty
(`Get()` null, boolean test false) whenever the two pointers differed; when the
two pointers were equal (self-assignment included) the state is unchanged. -/
theorem move_assign_source [Deleter D] (mv : D → D) (w : World D) (this other : Ref)
    (h2 h1 : UniquePtr D) (hthis : w.deref this = some h2)
    (hother : w.deref other = some h1) :
    ∃ w1, UniquePtr.moveAssign mv w this other = some w1 ∧
      (∃ t, w1.deref this = some t ∧ t.Get = h1.Get) ∧
      (h2.Get ≠ h1.Get →
        ∃ s, w1.deref other = some s ∧ s.Get = nullptr ∧ s.operatorBool = false) ∧
      (h2.Get = h1.Get → w1 = w) := by
  by_cases he : h2.own_.first = h1.own_.first
  · refine ⟨w, UniquePtr.moveAssign_same hthis hother he, ⟨h2, hthis, he⟩, ?_, fun _ => rfl⟩
    intro hne
    exact absurd he hne
  · have hne : this ≠ other := ne_of_deref hthis hother he
    have hl1 := World.deref_lt hthis
    have hl2 := World.deref_lt hother
    refine ⟨_, UniquePtr.moveAssign_diff hthis hother he, ?_, ?_, ?_⟩
    · refine ⟨{ own_ := { first := h1.own_.first, second := h1.own_.second } }, ?_, rfl⟩
      split <;> simp [hne, hne.symm, hl1]
    · intro _
      refine ⟨{ own_ := { first := nullptr, second := mv h1.own_.second } }, ?_, rfl, ?_⟩
      · split <;> simp [hl2]
      · simp [UniquePtr.operatorBool, CompressedPair.GetFirst]
    · intro h
      exact absurd h he

/-- C2 at a concrete store: `H1 = move(H0)` on `sampleWorld`. -/
theorem move_assign_source_witness :
    sampleWorld.deref 1 = some { own_ := { first := 9, second := 2 } } ∧
    sampleWorld.deref 0 = some { own_ := { first := 7, second := 1 } } ∧
    ∃ w1, UniquePtr.moveAssign sampleMv sampleWorld 1 0 = some w1 ∧
      ∃ t, w1.deref 1 = some t ∧ t.Get = 7 :=
  ⟨rfl, rfl, by
    obtain ⟨w1, h, ht, _, _⟩ := move_assign_source sampleMv sampleWorld 1 0 _ _ rfl rfl
    exact ⟨w1, h, ht⟩⟩

/-- C2, as stated, fails: a self-move-assignment of the owning handle 0 of
`sampleWorld`, and a move-assignment between two distinct handles that hold the
same address, both leave the source owning (`Get()` is 7, boolean test true). -/
theorem move_assign_source_not_emptied :
    (UniquePtr.moveAssign sampleMv sampleWorld 0 0 = some sampleWorld ∧
      (sampleWorld.deref 0).map UniquePtr.Get = some 7 ∧
      (sampleWorld.deref 0).map UniquePtr.operatorBool = some true) ∧
    (UniquePtr.moveAssign sampleMv aliasWorld 1 0 = some aliasWorld ∧
      (aliasWorld.deref 0).map UniquePtr.Get = some 7 ∧
      (aliasWorld.deref 0).map UniquePtr.operatorBool = some true) := by
  decide

/-- C3: when the pointers of the live handles `this` (T) and `other` (S) differ,
`T = move(S)` (both specializations) makes exactly one deleter call, through T
with T's previous deleter on T's previous pointer, if that pointer was non-null
and none if it was null; no call is made through S; afterwards T holds S's
previous pointer and deleter and S is empty. -/
theorem move_assign_differing [Deleter D] (mv : D → D) (w : World D) (this other : Ref)
    (t s : UniquePtr D) (hthis : w.deref this = some t) (hother : w.deref other = some s)
    (hne : t.Get ≠ s.Get) :
    ∀ f ∈ [UniquePtr.moveAssign mv, UniquePtrArray.moveAssign mv],
    ∃ w1 calls, f w this other = some w1 ∧ w1.log = w.log ++ calls ∧
      (t.Get ≠ nullptr → calls =
        [{ handle := this, deleter := t.GetDeleter, arg := t.Get, seen := t.Get }]) ∧
      (t.Get = nullptr → calls = []) ∧
      (∀ c ∈ calls, c.handle ≠ other) ∧
      w1.deref this = some { own_ := { first := s.Get, second := s.GetDeleter } } ∧
      ∃ s1, w1.deref other = some s1 ∧ s1.Get = nullptr ∧ s1.operatorBool = false := by
  intro f hf
  have hf : f = UniquePtr.moveAssign mv := by
    simp only [List.mem_cons, List.mem_singleton, List.not_mem_nil, or_false] at hf
    rcases hf with rfl | rfl
    · rfl
    · rw [UniquePtrArray.moveAssign_eq_single]
  subst hf
  have hro : this ≠ other := ne_of_deref hthis hother hne
  have hl1 := World.deref_lt hthis
  have hl2 := World.deref_lt hother
  refine ⟨_, if t.own_.first ≠ nullptr then
      [{ handle := this, deleter := t.own_.second, arg := t.own_.first, seen := t.own_.first }]
      else [],
    UniquePtr.moveAssign_diff hthis hother hne, ?_, ?_, ?_, ?_, ?_, ?_⟩
  · split <;> simp
  · intro h
    have h : t.own_.first ≠ nullptr := h
    simp [h, UniquePtr.Get, UniquePtr.GetDeleter, CompressedPair.GetFirst,
      CompressedPair.GetSecond]
  · intro h
    have h : t.own_.first = nullptr := h
    simp [h]
  · intro c hc
    split at hc
    · simp only [List.mem_singleton] at hc
      subst hc
      exact hro
    · simp at hc
  · split <;> simp [hro, hro.symm, hl1, UniquePtr.Get, UniquePtr.GetDeleter,
      CompressedPair.GetFirst, CompressedPair.GetSecond]
  · refine ⟨{ own_ := { first := nullptr, second := mv s.own_.second } }, ?_, rfl, ?_⟩
    · split <;> simp [hl2]
    · simp [UniquePtr.operatorBool, CompressedPair.GetFirst]

/-- C3 at a concrete store: `H1 = move(H0)` on `sampleWorld` calls deleter 2 on 9. -/
theorem move_assign_differing_witness :
    ∃ w1, UniquePtr.moveAssign sampleMv sampleWorld 1 0 = some w1 ∧
      w1.log = [{ handle := 1, deleter := 2, arg := 9, seen := 9 }] := by
  obtain ⟨w1, calls, h, hlog, hc, _⟩ :=
    move_assign_differing sampleMv sampleWorld 1 0 _ _ (by rfl) (by rfl) (by decide)
      (UniquePtr.moveAssign sampleMv) (by simp)
  refine ⟨w1, h, ?_⟩
  rw [hlog, hc (by decide)]
  rfl

/-- C4: self-move-assignment `H = move(H)` of a live handle (empty or owning)
returns and leaves the whole state unchanged: H keeps its pointer and deleter and
no deleter call is made. -/
theorem self_move_assign_noop [Deleter D] (mv : D → D) (w : World D) (this : Ref) (h : UniquePtr D)
    (hlive : w.deref this = some h) :
    UniquePtr.moveAssign mv w this this = some w ∧
    UniquePtrArray.moveAssign mv w this this = some w :=
  ⟨UniquePtr.moveAssign_same hlive hlive rfl, UniquePtr.moveAssign_same hlive hlive rfl⟩

/-- C4 at a concrete store: `H0 = move(H0)` on `sampleWorld`. -/
theorem self_move_assign_noop_witness :
    UniquePtr.moveAssign sampleMv sampleWorld 0 0 = some sampleWorld :=
  (self_move_assign_noop sampleMv sampleWorld 0 _ (by rfl)).1

/-- C5: `Release()` on a live handle H (both specializations) returns the pointer H
held, leaves H with a null pointer and the same deleter, touches no other handle
and makes no deleter call; destroying H afterwards makes no deleter call either. -/
theorem release_transfers_without_destruction [Deleter D] (w : World D) (this : Ref)
    (h : UniquePtr D) (hlive : w.deref this = some h) :
    ∀ f ∈ [@UniquePtr.Release D, @UniquePtrArray.Release D],
    ∃ w1, f w this = some (h.Get, w1) ∧
      w1.deref this = some { own_ := { first := nullptr, second := h.GetDeleter } } ∧
      (∀ r, r ≠ this → w1.deref r = w.deref r) ∧
      w1.log = w.log ∧
      ∃ w2, UniquePtr.dtor w1 this = some w2 ∧ w2.log = w.log := by
  intro f hf
  have hf : f = UniquePtr.Release := by
    simp only [List.mem_cons, List.mem_singleton, List.not_mem_nil, or_false] at hf
    rcases hf with rfl | rfl
    · rfl
    · rw [UniquePtrArray.Release_eq_single]
  subst hf
  have hl := World.deref_lt hlive
  have hd : (w.store this { own_ := { first := nullptr, second := h.own_.second } }).deref this
      = some { own_ := { first := nullptr, second := h.own_.second } } := by
    simp [hl]
  refine ⟨_, UniquePtr.Release_eq hlive, hd, ?_, rfl, _, UniquePtr.dtor_eq hd, ?_⟩
  · intro r hr
    simp [hr.symm]
  · simp

/-- C5 at a concrete store: `H0.Release()` on `sampleWorld` returns 7. -/
theorem release_transfers_without_destruction_witness :
    ∃ w1, UniquePtr.Release sampleWorld 0 = some (7, w1) ∧ w1.log = [] := by
  obtain ⟨w1, h, _, _, hl, _⟩ :=
    release_transfers_without_destruction sampleWorld 0 _ (by rfl)
      UniquePtr.Release (by simp)
  exact ⟨w1, h, hl⟩

/-- C6, as amended: `Reset(p2)` on a live handle H with pointer `p1` and deleter `d`
(both specializations) returns and leaves H with pointer `p2`. When `p1` is
non-null exactly one deleter call is made, `d(p1)` through H, at a moment when H
already stores `p2`, and H's deleter is left as that call left it; the number of
calls on `p1` grows by one and on every other address by none, so the deleter is
called on `p2` only if `p2` is `p1`. When `p1` is null no call is made and H keeps
`d`. No other handle is touched. -/
theorem reset_releases_old_keeps_new [Deleter D] (w : World D) (this : Ref) (p2 : Ptr)
    (h : UniquePtr D) (hlive : w.deref this = some h) :
    ∀ f ∈ [@UniquePtr.Reset D _, @UniquePtrArray.Reset D _],
    ∃ w1, f w this p2 = some w1 ∧
      (∃ h1, w1.deref this = some h1 ∧ h1.Get = p2) ∧
      (∀ r, r ≠ this → w1.deref r = w.deref r) ∧
      (h.Get ≠ nullptr → w1.log = w.log ++
        [{ handle := this, deleter := h.GetDeleter, arg := h.Get, seen := p2 }]) ∧
      (h.Get ≠ nullptr → w1.deref this = some
        { own_ := { first := p2, second := Deleter.call h.GetDeleter h.Get p2 } }) ∧
      (h.Get ≠ nullptr → w1.releases h.Get = w.releases h.Get + 1) ∧
      (h.Get ≠ nullptr → ∀ a, a ≠ h.Get → w1.releases a = w.releases a) ∧
      (h.Get ≠ nullptr → p2 ≠ h.Get → w1.releases p2 = w.releases p2) ∧
      (h.Get = nullptr → w1.log = w.log) ∧
      (h.Get = nullptr →
        w1.deref this = some { own_ := { first := p2, second := h.GetDeleter } }) := by
  intro f hf
  have hf : f = UniquePtr.Reset := by
    simp only [List.mem_cons, List.mem_singleton, List.not_mem_nil, or_false] at hf
    rcases hf with rfl | rfl
    · rfl
    · rw [UniquePtrArray.Reset_eq_single]
  subst hf
  have hl := World.deref_lt hlive
  have hrel : h.own_.first ≠ nullptr → ∀ a : Nat, a ≠ h.own_.first →
      ((w.store this
        { own_ := { first := p2, second := Deleter.call h.own_.second h.own_.first p2 } }).record
        (Call.mk this h.own_.second h.own_.first p2)).releases a = w.releases a := by
    intro _ a ha
    have ha : ¬ (h.own_.first = a) := fun e => ha e.symm
    simp [World.releases, World.record, World.store, ha]
  by_cases hz : h.own_.first = nullptr
  · have hr := UniquePtr.Reset_eq p2 hlive
    simp only [hz, ne_eq, not_true_eq_false, if_false] at hr
    have hd : (w.store this { own_ := { first := p2, second := h.own_.second } }).deref this
        = some { own_ := { first := p2, second := h.own_.second } } := by simp [hl]
    refine ⟨_, hr, ⟨_, hd, rfl⟩, ?_, ?_, ?_, ?_, ?_, ?_, fun _ => rfl, fun _ => hd⟩
    · intro r hr
      simp [hr.symm]
    all_goals exact fun hne => absurd hz hne
  · have hr := UniquePtr.Reset_eq p2 hlive
    simp only [ne_eq, hz, not_false_eq_true, if_true] at hr
    have hd : ((w.store this
        { own_ := { first := p2, second := Deleter.call h.own_.second h.own_.first p2 } }).record
        (Call.mk this h.own_.second h.own_.first p2)).deref this
        = some { own_ := { first := p2,
                           second := Deleter.call h.own_.second h.own_.first p2 } } := by
      simp [hl]
    refine ⟨_, hr, ⟨_, hd, rfl⟩, ?_, fun _ => rfl, fun _ => hd, ?_, hrel, ?_, ?_, ?_⟩
    · intro r hr
      simp [hr.symm]
    · intro _
      simp [World.releases, World.record, World.store, UniquePtr.Get,
        CompressedPair.GetFirst]
    · intro hne hp
      exact hrel hne p2 hp
    · intro he
      exact absurd he hz
    · intro he
      exact absurd he hz

/-- C6 at a concrete store: `H0.Reset(5)` on `countWorld` calls the counting deleter
once on 7, while the handle already stores 5, and the count goes from 0 to 1. -/
theorem reset_releases_old_keeps_new_witness :
    ∃ w1, UniquePtr.Reset countWorld 0 5 = some w1 ∧
      w1.deref 0 = some { own_ := { first := 5, second := { count := 1 } } } ∧
      w1.log = [{ handle := 0, deleter := { count := 0 }, arg := 7, seen := 5 }] := by
  obtain ⟨w1, h, _, _, hl, hd, _⟩ :=
    reset_releases_old_keeps_new countWorld 0 5
      { own_ := { first := 7, second := { count := 0 } } } (by rfl) UniquePtr.Reset (by simp)
  exact ⟨w1, h, hd (by decide), hl (by decide)⟩

/-- C6, as stated, fails: `H0.Reset(7)` on `sampleWorld`, where handle 0 owns 7,
calls the deleter with the new pointer 7, which the handle then keeps. -/
theorem reset_invokes_on_new_pointer :
    ∃ w1, UniquePtr.Reset sampleWorld 0 7 = some w1 ∧
      (w1.deref 0).map UniquePtr.Get = some 7 ∧
      w1.log = [{ handle := 0, deleter := 1, arg := 7, seen := 7 }] ∧
      sampleWorld.releases 7 = 0 ∧ w1.releases 7 = 1 :=
  ⟨_, rfl, rfl, rfl, rfl, rfl⟩

/-- C7: destroying a live handle H with pointer `p` and deleter `d` (both
specializations) returns and ends H's lifetime; exactly one deleter call `d(p)` is
made, through H, when `p` is non-null, and none when `p` is null. In particular no
call is made when H is destroyed right after being moved from (by move-construction
or by a move-assignment that took its pointer) or after `Release()`. -/
theorem destroy_releases_exactly_once [Deleter D] (mv conv : D → D) (w : World D) (this : Ref)
    (h : UniquePtr D) (hlive : w.deref this = some h) :
    (∀ f ∈ [@UniquePtr.dtor D _, @UniquePtrArray.dtor D _],
      ∃ w1, f w this = some w1 ∧ w1.deref this = none ∧
        (∀ r, r ≠ this → w1.deref r = w.deref r) ∧
        (h.Get ≠ nullptr → w1.log = w.log ++
          [{ handle := this, deleter := h.GetDeleter, arg := h.Get, seen := h.Get }]) ∧
        (h.Get = nullptr → w1.log = w.log)) ∧
    (∀ r w1, UniquePtr.moveCtorFrom mv conv w this = some (r, w1) →
      ∃ w2, UniquePtr.dtor w1 this = some w2 ∧ w2.log = w1.log) ∧
    (∀ target t w1, w.deref target = some t → t.Get ≠ h.Get →
      UniquePtr.moveAssign mv w target this = some w1 →
      ∃ w2, UniquePtr.dtor w1 this = some w2 ∧ w2.log = w1.log) ∧
    (∀ p w1, UniquePtr.Release w this = some (p, w1) →
      ∃ w2, UniquePtr.dtor w1 this = some w2 ∧ w2.log = w1.log) := by
  have hl := World.deref_lt hlive
  have key : ∀ (w1 : World D) (x : UniquePtr D), w1.deref this = some x →
      x.own_.first = nullptr → ∃ w2, UniquePtr.dtor w1 this = some w2 ∧ w2.log = w1.log := by
    intro w1 x hx hz
    refine ⟨_, UniquePtr.dtor_eq hx, ?_⟩
    simp [hz]
  refine ⟨?_, ?_, ?_, ?_⟩
  · intro f hf
    have hf : f = UniquePtr.dtor := by
      simp only [List.mem_cons, List.mem_singleton, List.not_mem_nil, or_false] at hf
      rcases hf with rfl | rfl
      · rfl
      · rw [UniquePtrArray.dtor_eq_single]
    subst hf
    refine ⟨_, UniquePtr.dtor_eq hlive, ?_, ?_, ?_, ?_⟩
    · simp
    · intro r hr
      split <;> simp [hr.symm]
    · intro hz
      have hz : h.own_.first ≠ nullptr := hz
      simp [hz, UniquePtr.Get, UniquePtr.GetDeleter, CompressedPair.GetFirst,
        CompressedPair.GetSecond]
    · intro hz
      have hz : h.own_.first = nullptr := hz
      simp [hz]
  · intro r w1 hm
    rw [UniquePtr.moveCtorFrom_eq hlive] at hm
    have hm := (Prod.mk.inj (Option.some.inj hm)).2
    subst hm
    refine key _ { own_ := { first := nullptr, second := mv h.own_.second } } ?_ rfl
    refine (World.deref_alloc _ _ _).trans ?_
    simp [Nat.ne_of_lt hl, hl]
  · intro target t w1 ht hne hm
    rw [UniquePtr.moveAssign_diff ht hlive hne] at hm
    have hm := Option.some.inj hm
    subst hm
    refine key _ { own_ := { first := nullptr, second := mv h.own_.second } } ?_ rfl
    split <;> simp [hl]
  · intro p w1 hm
    rw [UniquePtr.Release_eq hlive] at hm
    have hm := (Prod.mk.inj (Option.some.inj hm)).2
    subst hm
    refine key _ { own_ := { first := nullptr, second := h.own_.second } } ?_ rfl
    simp [hl]

/-- C7 at a concrete store: destroying the owning handle 1 of `sampleWorld` calls
deleter 2 on 9. -/
theorem destroy_releases_exactly_once_witness :
    ∃ w1, UniquePtr.dtor sampleWorld 1 = some w1 ∧ w1.deref 1 = none ∧
      w1.log = [{ handle := 1, deleter := 2, arg := 9, seen := 9 }] := by
  obtain ⟨w1, h, hd, _, hl, _⟩ :=
    (destroy_releases_exactly_once sampleMv id sampleWorld 1 _ (by rfl)).1
      UniquePtr.dtor (by simp)
  exact ⟨w1, h, hd, hl (by decide)⟩

/-- C10: `A.Swap(B)` on live handles A and B (both specializations, A and B may be
the same object) returns; afterwards A holds B's previous pointer and deleter, B
holds A's previous pointer and deleter, no other handle is touched and no deleter
call has been made. -/
theorem swap_exchanges_without_release (w : World D) (this other : Ref)
    (a b : UniquePtr D) (hthis : w.deref this = some a) (hother : w.deref other = some b) :
    ∀ f ∈ [@UniquePtr.Swap D, @UniquePtrArray.Swap D],
    ∃ w1, f w this other = some w1 ∧
      w1.deref this = some { own_ := { first := b.Get, second := b.GetDeleter } } ∧
      w1.deref other = some { own_ := { first := a.Get, second := a.GetDeleter } } ∧
      (∀ r, r ≠ this → r ≠ other → w1.deref r = w.deref r) ∧
      w1.log = w.log := by
  intro f hf
  have hf : f = UniquePtr.Swap := by
    simp only [List.mem_cons, List.mem_singleton, List.not_mem_nil, or_false] at hf
    rcases hf with rfl | rfl
    · rfl
    · rw [UniquePtrArray.Swap_eq_single]
  subst hf
  have hl1 := World.deref_lt hthis
  have hl2 := World.deref_lt hother
  refine ⟨_, UniquePtr.Swap_eq hthis hother, ?_, ?_, ?_, rfl⟩
  · by_cases e : other = this
    · subst e
      rw [hthis] at hother
      cases hother
      simp [hl1, UniquePtr.Get, UniquePtr.GetDeleter, CompressedPair.GetFirst,
        CompressedPair.GetSecond]
    · simp [e, hl1, UniquePtr.Get, UniquePtr.GetDeleter, CompressedPair.GetFirst,
        CompressedPair.GetSecond]
  · simp [hl2, UniquePtr.Get, UniquePtr.GetDeleter, CompressedPair.GetFirst,
      CompressedPair.GetSecond]
  · intro r h1 h2
    simp [h1.symm, h2.symm]

/-- C10 at a concrete store: `H0.Swap(H1)` on `sampleWorld`. -/
theorem swap_exchanges_without_release_witness :
    ∃ w1, UniquePtr.Swap sampleWorld 0 1 = some w1 ∧
      w1.deref 0 = some { own_ := { first := 9, second := 2 } } ∧
      w1.deref 1 = some { own_ := { first := 7, second := 1 } } ∧
      w1.log = [] := by
  obtain ⟨w1, h, h0, h1, _, hl⟩ :=
    swap_exchanges_without_release sampleWorld 0 1 _ _ (by rfl) (by rfl)
      UniquePtr.Swap (by simp)
  exact ⟨w1, h, h0, h1, hl⟩

/-! ## Counting owners and deleter calls -/

theorem countP_set_add {α : Type} (p : α → Bool) (l : List α) (i : Nat) (x y : α)
    (h : l[i]? = some x) :
    (l.set i y).countP p + (if p x then 1 else 0) = l.countP p + (if p y then 1 else 0) := by
  induction l generalizing i with
  | nil => simp at h
  | cons z zs ih =>
    cases i with
    | zero =>
      simp only [List.getElem?_cons_zero, Option.some.injEq] at h
      subst h
      simp only [List.set_cons_zero, List.countP_cons]
      omega
    | succ n =>
      simp only [List.getElem?_cons_succ] at h
      have := ih n h
      simp only [List.set_cons_succ, List.countP_cons]
      omega

theorem World.owners_store {w : World D} {r : Nat} {x : UniquePtr D} (y : UniquePtr D)
    (a : Nat) (hr : w.deref r = some x) :
    (w.store r y).owners a + (if x.own_.first = a then 1 else 0)
      = w.owners a + (if y.own_.first = a then 1 else 0) := by
  have h := countP_set_add (fun s : Option (UniquePtr D) => s.any (fun h => decide (h.Get = a)))
    w.handles r (some x) (some y) (World.deref_eq_some.1 hr)
  simpa [World.owners, World.store, UniquePtr.Get, CompressedPair.GetFirst] using h

theorem World.owners_free {w : World D} {r : Nat} {x : UniquePtr D}
    (a : Nat) (hr : w.deref r = some x) :
    (w.free r).owners a + (if x.own_.first = a then 1 else 0) = w.owners a := by
  have h := countP_set_add (fun s : Option (UniquePtr D) => s.any (fun h => decide (h.Get = a)))
    w.handles r (some x) none (World.deref_eq_some.1 hr)
  simpa [World.owners, World.free, UniquePtr.Get, CompressedPair.GetFirst] using h

theorem World.owners_alloc (w : World D) (y : UniquePtr D) (a : Nat) :
    (w.alloc y).2.owners a = w.owners a + (if y.own_.first = a then 1 else 0) := by
  simp [World.owners, World.alloc, UniquePtr.Get, CompressedPair.GetFirst, List.countP_cons]

@[simp] theorem World.owners_record (w : World D) (c : Call D) (a : Nat) :
    (w.record c).owners a = w.owners a := rfl

theorem World.releases_record (w : World D) (c : Call D) (a : Nat) :
    (w.record c).releases a = w.releases a + (if c.arg = a then 1 else 0) := by
  simp [World.releases, World.record, List.countP_cons]

@[simp] theorem World.releases_store (w : World D) (r : Nat) (y : UniquePtr D) (a : Nat) :
    (w.store r y).releases a = w.releases a := rfl

@[simp] theorem World.releases_free (w : World D) (r : Nat) (a : Nat) :
    (w.free r).releases a = w.releases a := rfl

@[simp] theorem World.releases_alloc (w : World D) (y : UniquePtr D) (a : Nat) :
    (w.alloc y).2.releases a = w.releases a := rfl

theorem UniquePtr.moveAssign_live [Deleter D] {mv : D → D} {w w1 : World D} {this other : Ref}
    (h : UniquePtr.moveAssign mv w this other = some w1) :
    ∃ a b, w.deref this = some a ∧ w.deref other = some b := by
  cases ha : w.deref this with
  | none => simp [UniquePtr.moveAssign, World.GetFirst, ha] at h
  | some a =>
    cases hb : w.deref other with
    | none => simp [UniquePtr.moveAssign, World.GetFirst, ha, hb] at h
    | some b => exact ⟨a, b, rfl, rfl⟩

theorem UniquePtr.moveAssign_balance [Deleter D] {mv : D → D} {w w1 : World D} {this other : Ref}
    (h : UniquePtr.moveAssign mv w this other = some w1) (a : Nat) :
    w.releases a ≤ w1.releases a ∧ w1.handles.length = w.handles.length ∧
    (a ≠ nullptr → w1.owners a + w1.releases a = w.owners a + w.releases a) ∧
    w1.releases nullptr = w.releases nullptr := by
  obtain ⟨t, s, ht, hs⟩ := UniquePtr.moveAssign_live h
  by_cases he : t.own_.first = s.own_.first
  · rw [UniquePtr.moveAssign_same ht hs he] at h
    cases h
    exact ⟨Nat.le_refl _, rfl, fun _ => rfl, rfl⟩
  · rw [UniquePtr.moveAssign_diff ht hs he] at h
    have hne : this ≠ other := ne_of_deref ht hs he
    have key : ∀ W : World D, W.deref this = some t → W.deref other = some s →
        a ≠ nullptr →
        ((W.store this { own_ := { first := s.own_.first, second := s.own_.second } }).store
          other { own_ := { first := nullptr, second := mv s.own_.second } }).owners a
          + (if t.own_.first = a then 1 else 0) = W.owners a := by
      intro W hWt hWs ha
      have e1 := World.owners_store
        { own_ := { first := s.own_.first, second := s.own_.second } } a hWt
      have hs1 : (W.store this
          { own_ := { first := s.own_.first, second := s.own_.second } }).deref
          other = some s := by simp [hne, hWs]
      have e2 := World.owners_store
        { own_ := { first := nullptr, second := mv s.own_.second } } a hs1
      have ha2 : ¬ (nullptr = a) := fun e => ha e.symm
      dsimp only at e1 e2
      simp only [if_neg ha2] at e2
      omega
    by_cases hz : t.own_.first = nullptr
    · simp only [hz, ne_eq, not_true_eq_false, if_false] at h
      cases h
      refine ⟨Nat.le_refl _, by simp, ?_, rfl⟩
      intro ha
      have k := key w ht hs ha
      have ha2 : ¬ (nullptr = a) := fun e => ha e.symm
      simp only [hz, if_neg ha2] at k
      simp only [World.releases_store]
      omega
    · simp only [ne_eq, hz, not_false_eq_true, if_true] at h
      cases h
      have e3 := World.releases_record w (Call.mk this t.own_.second t.own_.first t.own_.first) a
      have e4 := World.releases_record w (Call.mk this t.own_.second t.own_.first t.own_.first)
        nullptr
      dsimp only at e3 e4
      simp only [if_neg hz] at e4
      simp only [World.releases_store]
      refine ⟨by omega, by simp, ?_, e4⟩
      intro ha
      have k := key (w.record (Call.mk this t.own_.second t.own_.first t.own_.first)) ht hs ha
      simp only [World.owners_record] at k
      omega

theorem UniquePtr.moveCtorFrom_balance {mv conv : D → D} {w : World D} {other : Ref}
    {res : Ref × World D} (h : UniquePtr.moveCtorFrom mv conv w other = some res) (a : Nat) :
    res.2.releases a = w.releases a ∧ (a ≠ nullptr → res.2.owners a = w.owners a) := by
  cases ho : w.deref other with
  | none => simp [UniquePtr.moveCtorFrom, UniquePtr.Release, World.GetFirst, ho] at h
  | some s =>
    rw [UniquePtr.moveCtorFrom_eq ho] at h
    cases h
    refine ⟨rfl, ?_⟩
    intro ha
    have ha2 : ¬ (nullptr = a) := fun e => ha e.symm
    have e1 := World.owners_store { own_ := { first := nullptr, second := mv s.own_.second } } a ho
    have e2 := World.owners_alloc
      (w.store other { own_ := { first := nullptr, second := mv s.own_.second } })
      { own_ := { first := s.own_.first, second := conv s.own_.second } } a
    dsimp only at e1 e2
    simp only [if_neg ha2] at e1
    omega

theorem UniquePtr.assignNull_balance [Deleter D] {w w1 : World D} {this : Ref}
    (h : UniquePtr.assignNull w this = some w1) (a : Nat) :
    w.releases a ≤ w1.releases a ∧
    (a ≠ nullptr → w1.owners a + w1.releases a = w.owners a + w.releases a) ∧
    w1.releases nullptr = w.releases nullptr := by
  cases ht : w.deref this with
  | none => simp [UniquePtr.assignNull, World.GetFirst, ht] at h
  | some t =>
    rw [UniquePtr.assignNull_eq ht] at h
    by_cases hz : t.own_.first = nullptr
    · simp only [hz, ne_eq, not_true_eq_false, if_false] at h
      cases h
      refine ⟨Nat.le_refl _, ?_, rfl⟩
      intro ha
      have ha2 : ¬ (nullptr = a) := fun e => ha e.symm
      have e1 := World.owners_store { own_ := { first := nullptr, second := t.own_.second } } a ht
      dsimp only at e1
      simp only [hz, if_neg ha2] at e1
      simp only [World.releases_store]
      omega
    · simp only [ne_eq, hz, not_false_eq_true, if_true] at h
      cases h
      have e3 := World.releases_record w (Call.mk this t.own_.second t.own_.first t.own_.first) a
      have e4 := World.releases_record w (Call.mk this t.own_.second t.own_.first t.own_.first)
        nullptr
      dsimp only at e3 e4
      simp only [if_neg hz] at e4
      simp only [World.releases_store]
      refine ⟨by omega, ?_, e4⟩
      intro ha
      have ha2 : ¬ (nullptr = a) := fun e => ha e.symm
      have ht0 : (w.record (Call.mk this t.own_.second t.own_.first t.own_.first)).deref this
          = some t := ht
      have e1 := World.owners_store
        { own_ := { first := nullptr,
                    second := Deleter.call t.own_.second t.own_.first t.own_.first } } a ht0
      dsimp only at e1
      simp only [if_neg ha2, World.owners_record] at e1
      omega

theorem UniquePtr.dtor_balance [Deleter D] {w w1 : World D} {this : Ref}
    (h : UniquePtr.dtor w this = some w1) (a : Nat) :
    w.releases a ≤ w1.releases a ∧
    (a ≠ nullptr → w1.owners a + w1.releases a = w.owners a + w.releases a) ∧
    w1.releases nullptr = w.releases nullptr := by
  cases ht : w.deref this with
  | none => simp [UniquePtr.dtor, World.GetFirst, ht] at h
  | some t =>
    rw [UniquePtr.dtor_eq ht] at h
    by_cases hz : t.own_.first = nullptr
    · simp only [hz, ne_eq, not_true_eq_false, if_false] at h
      cases h
      refine ⟨Nat.le_refl _, ?_, rfl⟩
      intro ha
      have ha2 : ¬ (nullptr = a) := fun e => ha e.symm
      have e1 := World.owners_free a ht
      simp only [hz, if_neg ha2] at e1
      simp only [World.releases_free]
      omega
    · simp only [ne_eq, hz, not_false_eq_true, if_true] at h
      cases h
      have e3 := World.releases_record w (Call.mk this t.own_.second t.own_.first t.own_.first) a
      have e4 := World.releases_record w (Call.mk this t.own_.second t.own_.first t.own_.first)
        nullptr
      dsimp only at e3 e4
      simp only [if_neg hz] at e4
      simp only [World.releases_free]
      refine ⟨by omega, ?_, e4⟩
      intro _
      have ht0 : (w.record (Call.mk this t.own_.second t.own_.first t.own_.first)).deref this
          = some t := ht
      have e1 := World.owners_free a ht0
      simp only [World.owners_record] at e1
      omega

theorem UniquePtr.Release_balance {w : World D} {this : Ref} {res : Ptr × World D}
    (h : UniquePtr.Release w this = some res) (a : Nat) :
    res.2.releases a = w.releases a ∧ (a ≠ nullptr → res.2.owners a ≤ w.owners a) := by
  cases ht : w.deref this with
  | none => simp [UniquePtr.Release, World.GetFirst, ht] at h
  | some t =>
    rw [UniquePtr.Release_eq ht] at h
    cases h
    refine ⟨rfl, ?_⟩
    intro ha
    have ha2 : ¬ (nullptr = a) := fun e => ha e.symm
    have e1 := World.owners_store { own_ := { first := nullptr, second := t.own_.second } } a ht
    dsimp only at e1 ⊢
    simp only [if_neg ha2] at e1
    omega

theorem UniquePtr.Swap_balance {w w1 : World D} {this other : Ref}
    (h : UniquePtr.Swap w this other = some w1) (a : Nat) :
    w1.releases a = w.releases a ∧ w1.owners a = w.owners a := by
  cases ht : w.deref this with
  | none => simp [UniquePtr.Swap, ht] at h
  | some t =>
    cases hs : w.deref other with
    | none => simp [UniquePtr.Swap, ht, hs] at h
    | some s =>
      rw [UniquePtr.Swap_eq ht hs] at h
      cases h
      refine ⟨rfl, ?_⟩
      have hl := World.deref_lt ht
      have e1 := World.owners_store { own_ := s.own_ } a ht
      by_cases hne : this = other
      · subst hne
        rw [ht] at hs
        cases hs
        rw [World.store_store]
        have e2 := World.owners_store { own_ := t.own_ } a ht
        dsimp only at e1 e2
        omega
      · have hs1 : (w.store this { own_ := s.own_ }).deref other = some s := by
          simp [hne, hs]
        have e2 := World.owners_store { own_ := t.own_ } a hs1
        dsimp only at e1 e2
        omega

theorem UniquePtr.Reset_balance [Deleter D] {w w1 : World D} {this : Ref} {ptr : Ptr}
    (h : UniquePtr.Reset w this ptr = some w1) (a : Nat) :
    w.releases a ≤ w1.releases a ∧
    (a ≠ nullptr → w1.owners a + w1.releases a
      = w.owners a + w.releases a + (if ptr = a then 1 else 0)) ∧
    w1.releases nullptr = w.releases nullptr := by
  cases ht : w.deref this with
  | none => simp [UniquePtr.Reset, World.GetFirst, ht] at h
  | some t =>
    rw [UniquePtr.Reset_eq ptr ht] at h
    have e0 : ∀ x : D, (w.store this { own_ := { first := ptr, second := x } }).owners a
        + (if t.own_.first = a then 1 else 0) = w.owners a + (if ptr = a then 1 else 0) :=
      fun x => World.owners_store { own_ := { first := ptr, second := x } } a ht
    by_cases hz : t.own_.first = nullptr
    · simp only [hz, ne_eq, not_true_eq_false, if_false] at h
      cases h
      refine ⟨Nat.le_refl _, ?_, rfl⟩
      intro ha
      have ha2 : ¬ (nullptr = a) := fun e => ha e.symm
      have e1 := e0 t.own_.second
      simp only [hz, if_neg ha2] at e1
      simp only [World.releases_store]
      omega
    · simp only [ne_eq, hz, not_false_eq_true, if_true] at h
      cases h
      have e1 := e0 (Deleter.call t.own_.second t.own_.first ptr)
      have e3 := World.releases_record
        (w.store this
          { own_ := { first := ptr, second := Deleter.call t.own_.second t.own_.first ptr } })
        (Call.mk this t.own_.second t.own_.first ptr) a
      have e4 := World.releases_record
        (w.store this
          { own_ := { first := ptr, second := Deleter.call t.own_.second t.own_.first ptr } })
        (Call.mk this t.own_.second t.own_.first ptr) nullptr
      dsimp only at e3 e4
      simp only [if_neg hz, World.releases_store] at e3 e4
      refine ⟨by omega, ?_, e4⟩
      intro _
      simp only [World.owners_record]
      omega

/-! ## Sequences: the safety invariant and conservation -/

theorem step_safe [Deleter D] {mv : D → D} {w w1 : World D} {op : Op D}
    (hsafe : (∀ a, a ≠ nullptr → w.owners a + w.releases a ≤ 1) ∧ w.releases nullptr = 0)
    (hfresh : op.fresh w = true) (h : step mv w op = some w1) :
    (∀ a, a ≠ nullptr → w1.owners a + w1.releases a ≤ 1) ∧ w1.releases nullptr = 0 := by
  obtain ⟨hs1, hs2⟩ := hsafe
  cases op with
  | moveCtor conv other =>
    simp only [step, Option.map_eq_some'] at h
    obtain ⟨res, hres, rfl⟩ := h
    refine ⟨fun a ha => ?_, ?_⟩
    · have e := UniquePtr.moveCtorFrom_balance hres a
      have := hs1 a ha
      have := e.2 ha
      omega
    · rw [(UniquePtr.moveCtorFrom_balance hres nullptr).1, hs2]
  | moveAssign this other =>
    refine ⟨fun a ha => ?_, ?_⟩
    · have e := (UniquePtr.moveAssign_balance h a).2.2.1 ha
      have := hs1 a ha
      omega
    · rw [(UniquePtr.moveAssign_balance h nullptr).2.2.2, hs2]
  | assignNull this =>
    refine ⟨fun a ha => ?_, ?_⟩
    · have e := (UniquePtr.assignNull_balance h a).2.1 ha
      have := hs1 a ha
      omega
    · rw [(UniquePtr.assignNull_balance h nullptr).2.2, hs2]
  | release this =>
    simp only [step, Option.map_eq_some'] at h
    obtain ⟨res, hres, rfl⟩ := h
    refine ⟨fun a ha => ?_, ?_⟩
    · have e := UniquePtr.Release_balance hres a
      have := hs1 a ha
      have := e.2 ha
      omega
    · rw [(UniquePtr.Release_balance hres nullptr).1, hs2]
  | swap this other =>
    refine ⟨fun a ha => ?_, ?_⟩
    · have e := UniquePtr.Swap_balance h a
      have := hs1 a ha
      omega
    · rw [(UniquePtr.Swap_balance h nullptr).1, hs2]
  | reset this ptr =>
    refine ⟨fun a ha => ?_, ?_⟩
    · have e := (UniquePtr.Reset_balance h a).2.1 ha
      have := hs1 a ha
      by_cases hp : ptr = a
      · subst hp
        simp only [Op.fresh, Bool.or_eq_true, decide_eq_true_eq, Bool.and_eq_true,
          beq_iff_eq] at hfresh
        rcases hfresh with hf | hf
        · exact absurd hf ha
        · simp only [if_true] at e
          omega
      · simp only [if_neg hp] at e
        omega
    · rw [(UniquePtr.Reset_balance h nullptr).2.2, hs2]
  | destroy this =>
    refine ⟨fun a ha => ?_, ?_⟩
    · have e := (UniquePtr.dtor_balance h a).2.1 ha
      have := hs1 a ha
      omega
    · rw [(UniquePtr.dtor_balance h nullptr).2.2, hs2]

theorem run_safe [Deleter D] {mv : D → D} (ops : List (Op D)) : ∀ {w w1 : World D},
    (∀ a, a ≠ nullptr → w.owners a + w.releases a ≤ 1) ∧ w.releases nullptr = 0 →
    ResetsFresh mv w ops = true → run mv w ops = some w1 →
    (∀ a, a ≠ nullptr → w1.owners a + w1.releases a ≤ 1) ∧ w1.releases nullptr = 0 := by
  induction ops with
  | nil =>
    intro w w1 hsafe _ h
    simp only [run, Option.some.injEq] at h
    subst h
    exact hsafe
  | cons op ops ih =>
    intro w w1 hsafe hfresh h
    simp only [run] at h
    cases hstep : step mv w op with
    | none => simp [hstep] at h
    | some w' =>
      simp only [hstep, Option.some_bind] at h
      simp only [ResetsFresh, hstep, Bool.and_eq_true] at hfresh
      exact ih (step_safe hsafe hfresh.1 hstep) hfresh.2 h

theorem World.releases_of_log_nil {w : World D} (h : w.log = []) (a : Nat) :
    w.releases a = 0 := by
  simp [World.releases, h]

/-- C8: start from a state with no deleter call made yet in which every non-null
address is held by at most one live handle. Run any sequence of move-constructions,
move-assignments, null-assignments, `Release`, `Swap`, `Reset` and destructions that
only uses live handles and in which every `Reset` argument is null or an address
that, at that moment, no live handle holds and no deleter has received. Then every
address has been passed to a deleter at most once. -/
theorem no_double_release [Deleter D] (mv : D → D) (w0 w : World D) (ops : List (Op D))
    (hlog : w0.log = []) (hdistinct : ∀ a, a ≠ nullptr → w0.owners a ≤ 1)
    (hfresh : ResetsFresh mv w0 ops = true) (hrun : run mv w0 ops = some w) :
    ∀ a, w.releases a ≤ 1 := by
  have h0 : (∀ a, a ≠ nullptr → w0.owners a + w0.releases a ≤ 1) ∧ w0.releases nullptr = 0 := by
    refine ⟨fun a ha => ?_, World.releases_of_log_nil hlog _⟩
    rw [World.releases_of_log_nil hlog]
    exact hdistinct a ha
  have h1 := run_safe ops h0 hfresh hrun
  intro a
  by_cases ha : a = nullptr
  · subst ha
    rw [h1.2]
    exact Nat.zero_le _
  · have := h1.1 a ha
    omega

theorem step_transfer_balance [Deleter D] {mv : D → D} {w w1 : World D} {op : Op D}
    (ht : op.isTransfer = true) (h : step mv w op = some w1) (a : Nat) :
    (a ≠ nullptr → w1.owners a + w1.releases a = w.owners a + w.releases a) ∧
    w1.releases nullptr = w.releases nullptr := by
  cases op with
  | moveCtor conv other =>
    simp only [step, Option.map_eq_some'] at h
    obtain ⟨res, hres, rfl⟩ := h
    refine ⟨fun ha => ?_, (UniquePtr.moveCtorFrom_balance hres nullptr).1⟩
    have e := UniquePtr.moveCtorFrom_balance hres a
    have := e.2 ha
    omega
  | moveAssign this other =>
    exact ⟨(UniquePtr.moveAssign_balance h a).2.2.1, (UniquePtr.moveAssign_balance h a).2.2.2⟩
  | assignNull this =>
    exact ⟨(UniquePtr.assignNull_balance h a).2.1, (UniquePtr.assignNull_balance h a).2.2⟩
  | swap this other =>
    refine ⟨fun _ => ?_, (UniquePtr.Swap_balance h nullptr).1⟩
    have e := UniquePtr.Swap_balance h a
    omega
  | release this => simp [Op.isTransfer] at ht
  | reset this ptr => simp [Op.isTransfer] at ht
  | destroy this => simp [Op.isTransfer] at ht

theorem run_transfer_balance [Deleter D] {mv : D → D} (ops : List (Op D)) : ∀ {w w1 : World D},
    (∀ op ∈ ops, op.isTransfer = true) → run mv w ops = some w1 → ∀ a,
    (a ≠ nullptr → w1.owners a + w1.releases a = w.owners a + w.releases a) ∧
    w1.releases nullptr = w.releases nullptr := by
  induction ops with
  | nil =>
    intro w w1 _ h a
    simp only [run, Option.some.injEq] at h
    subst h
    exact ⟨fun _ => rfl, rfl⟩
  | cons op ops ih =>
    intro w w1 ht h a
    simp only [run] at h
    cases hstep : step mv w op with
    | none => simp [hstep] at h
    | some w' =>
      simp only [hstep, Option.some_bind] at h
      have e1 := step_transfer_balance (ht op (List.mem_cons_self _ _)) hstep a
      have e2 := ih (fun o ho => ht o (List.mem_cons_of_mem _ ho)) h a
      refine ⟨fun ha => ?_, ?_⟩
      · rw [e2.1 ha, e1.1 ha]
      · rw [e2.2, e1.2]

theorem UniquePtr.dtor_frame [Deleter D] {w : World D} {this : Nat} {t : UniquePtr D}
    (ht : w.deref this = some t) :
    ∃ w1, UniquePtr.dtor w this = some w1 ∧ w1.handles.length = w.handles.length ∧
      w1.deref this = none ∧ ∀ r, r ≠ this → w1.deref r = w.deref r := by
  refine ⟨_, UniquePtr.dtor_eq ht, ?_, ?_, ?_⟩
  · split <;> simp
  · simp
  · intro r hr
    split <;> simp [hr.symm]

theorem destroyBelow_spec [Deleter D] (n : Nat) : ∀ (w : World D),
    ∃ w2, destroyBelow n w = some w2 ∧ w2.handles.length = w.handles.length ∧
      (∀ r, r < n → w2.deref r = none) ∧ (∀ r, n ≤ r → w2.deref r = w.deref r) ∧
      (∀ a, a ≠ nullptr → w2.owners a + w2.releases a = w.owners a + w.releases a) ∧
      w2.releases nullptr = w.releases nullptr := by
  induction n with
  | zero =>
    intro w
    exact ⟨w, rfl, rfl, fun r hr => absurd hr (Nat.not_lt_zero r), fun _ _ => rfl,
      fun _ _ => rfl, rfl⟩
  | succ n ih =>
    intro w
    cases hd : w.deref n with
    | none =>
      obtain ⟨w2, h1, h2, h3, h4, h5, h6⟩ := ih w
      refine ⟨w2, ?_, h2, ?_, fun r hr => h4 r (by omega), h5, h6⟩
      · simp [destroyBelow, hd, h1]
      · intro r hr
        by_cases hrn : r = n
        · subst hrn
          rw [h4 r (Nat.le_refl r), hd]
        · exact h3 r (by omega)
    | some t =>
      obtain ⟨w', hw', hlen, hdn, hfr⟩ := UniquePtr.dtor_frame hd
      obtain ⟨w2, h1, h2, h3, h4, h5, h6⟩ := ih w'
      have hb := fun a => UniquePtr.dtor_balance hw' a
      refine ⟨w2, ?_, h2.trans hlen, ?_, ?_, ?_, ?_⟩
      · simp [destroyBelow, hd, hw', h1]
      · intro r hr
        by_cases hrn : r = n
        · subst hrn
          rw [h4 r (Nat.le_refl r), hdn]
        · exact h3 r (by omega)
      · intro r hr
        rw [h4 r (by omega), hfr r (by omega)]
      · intro a ha
        rw [h5 a ha, (hb a).2.1 ha]
      · rw [h6, (hb nullptr).2.2]

theorem World.deref_none_of_le {w : World D} {r : Nat} (h : w.handles.length ≤ r) :
    w.deref r = none := by
  simp [World.deref, List.getElem?_eq_none h]

theorem World.owners_eq_zero {w : World D} (h : ∀ r, w.deref r = none) (a : Nat) :
    w.owners a = 0 := by
  unfold World.owners
  rw [List.countP_eq_zero]
  intro x hx
  obtain ⟨i, hi, rfl⟩ := List.getElem_of_mem hx
  cases hxi : w.handles[i] with
  | none => simp
  | some u =>
    have : w.deref i = some u := by
      rw [World.deref_eq_some, List.getElem?_eq_getElem hi, hxi]
    rw [h i] at this
    cases this

/-- C9: start from a state with no deleter call made yet in which every non-null
address is held by at most one live handle. Run any sequence of move-constructions,
move-assignments, null-assignments and `Swap` calls on live handles, then destroy
every live handle. The destruction returns, no handle is left alive, and every
non-null address has been passed to a deleter exactly as many times as it had
owners at the start: once if it was owned, never otherwise; the null pointer is
never passed, so nothing is leaked and nothing is released twice. -/
theorem release_under_move_chains [Deleter D] (mv : D → D) (w0 w1 : World D) (ops : List (Op D))
    (hlog : w0.log = []) (hdistinct : ∀ a, a ≠ nullptr → w0.owners a ≤ 1)
    (htransfer : ∀ op ∈ ops, op.isTransfer = true) (hrun : run mv w0 ops = some w1) :
    ∃ w2, destroyAll w1 = some w2 ∧ (∀ r, w2.deref r = none) ∧
      (∀ a, a ≠ nullptr → w2.releases a = w0.owners a) ∧
      (∀ a, a ≠ nullptr → w0.owners a = 1 → w2.releases a = 1) ∧
      (∀ a, w2.releases a ≤ 1) := by
  obtain ⟨w2, h1, h2, h3, _, h5, h6⟩ := destroyBelow_spec w1.handles.length w1
  have hdead : ∀ r, w2.deref r = none := by
    intro r
    by_cases hr : r < w1.handles.length
    · exact h3 r hr
    · exact World.deref_none_of_le (h2 ▸ Nat.le_of_not_lt hr)
  have hrel : ∀ a, a ≠ nullptr → w2.releases a = w0.owners a := by
    intro a ha
    have e1 := h5 a ha
    have e2 := (run_transfer_balance ops htransfer hrun a).1 ha
    have e3 := World.owners_eq_zero hdead a
    have e4 := World.releases_of_log_nil hlog a
    omega
  refine ⟨w2, h1, hdead, hrel, ?_, ?_⟩
  · intro a ha h
    rw [hrel a ha, h]
  · intro a
    by_cases ha : a = nullptr
    · subst ha
      rw [h6, (run_transfer_balance ops htransfer hrun nullptr).2,
        World.releases_of_log_nil hlog]
      exact Nat.zero_le _
    · rw [hrel a ha]
      exact hdistinct a ha

theorem sampleWorld_distinct : ∀ a : Nat, a ≠ nullptr → sampleWorld.owners a ≤ 1 := by
  intro a ha
  have ha2 : ¬ (0 = a) := fun e => ha e.symm
  simp only [World.owners, sampleWorld, List.countP_cons, List.countP_nil, Option.any_some,
    UniquePtr.Get, CompressedPair.GetFirst, decide_eq_true_eq, if_neg ha2]
  by_cases h9 : 9 = a
  · have h7 : ¬ (7 = a) := by omega
    simp [h9, h7]
  · simp only [if_neg h9]
    split <;> omega

/-- C8 at a concrete program: `sampleOps` run on `sampleWorld` returns, and no
address has been passed to a deleter twice. -/
theorem no_double_release_witness :
    ∃ w, run sampleMv sampleWorld sampleOps = some w ∧
      w.log = [{ handle := 1, deleter := 2, arg := 9, seen := 9 },
               { handle := 0, deleter := 1, arg := 7, seen := 11 }] ∧
      ∀ a, w.releases a ≤ 1 :=
  ⟨_, rfl, rfl,
    no_double_release sampleMv sampleWorld _ sampleOps rfl sampleWorld_distinct
      (by decide) rfl⟩

/-- C9 at a concrete program: after `sampleTransfers` on `sampleWorld` and the
destruction of all handles, the addresses 7 and 9 have each been released once. -/
theorem release_under_move_chains_witness :
    ∃ w1 w2, run sampleMv sampleWorld sampleTransfers = some w1 ∧
      destroyAll w1 = some w2 ∧ w2.releases 7 = 1 ∧ w2.releases 9 = 1 := by
  have hrun : run sampleMv sampleWorld sampleTransfers = some
      { handles := [some { own_ := { first := 0, second := 2 } },
                    some { own_ := { first := 0, second := 0 } },
                    some { own_ := { first := 0, second := 0 } },
                    some { own_ := { first := 7, second := 1 } }],
        log := [{ handle := 0, deleter := 2, arg := 9, seen := 9 }] } := by decide
  obtain ⟨w2, h, _, _, h1, _⟩ :=
    release_under_move_chains sampleMv sampleWorld _ sampleTransfers rfl
      sampleWorld_distinct (by decide) hrun
  exact ⟨_, w2, hrun, h, h1 7 (by decide) (by decide), h1 9 (by decide) (by decide)⟩

/-! ## Null-assignment, construction scenarios and the two specializations -/

theorem UniquePtrArray.assignNull_eq_single [Deleter D] :
    @UniquePtrArray.assignNull D _ = @UniquePtr.assignNull D _ := rfl

theorem UniquePtr.moveCtor_eq {mv : D → D} {w : World D} {other : Ref}
    {h : UniquePtr D} (hr : w.deref other = some h) :
    UniquePtr.moveCtor mv w other = some
      ((w.store other { own_ := { first := nullptr, second := mv h.own_.second } }).alloc
        { own_ := { first := h.own_.first, second := h.own_.second } }) :=
  @UniquePtr.moveCtorFrom_eq D mv id w other h hr

/-- C11, as amended: `H = nullptr` on a live handle H with pointer `p` and deleter
`d` (both specializations) returns; exactly one deleter call `d(p)` is made,
through H, when `p` is non-null and none when `p` is null; afterwards H is empty
(`Get()` null, boolean test false) and no other handle is touched. The deleter
slot is not assigned: H's deleter is `d` when `p` was null, and `d` as the call
left it when `p` was non-null, which is `d` again for a deleter that the call
does not change. -/
theorem null_assign_releases_and_empties [Deleter D] (w : World D) (this : Ref)
    (h : UniquePtr D) (hlive : w.deref this = some h) :
    ∀ f ∈ [@UniquePtr.assignNull D _, @UniquePtrArray.assignNull D _],
    ∃ w1 h1, f w this = some w1 ∧
      w1.deref this = some h1 ∧ h1.Get = nullptr ∧ h1.operatorBool = false ∧
      (∀ r, r ≠ this → w1.deref r = w.deref r) ∧
      (h.Get ≠ nullptr → w1.log = w.log ++
        [{ handle := this, deleter := h.GetDeleter, arg := h.Get, seen := h.Get }]) ∧
      (h.Get ≠ nullptr → h1.GetDeleter = Deleter.call h.GetDeleter h.Get h.Get) ∧
      (h.Get ≠ nullptr → Deleter.call h.GetDeleter h.Get h.Get = h.GetDeleter →
        h1.GetDeleter = h.GetDeleter) ∧
      (h.Get = nullptr → w1.log = w.log) ∧
      (h.Get = nullptr → h1.GetDeleter = h.GetDeleter) := by
  intro f hf
  have hf : f = UniquePtr.assignNull := by
    simp only [List.mem_cons, List.mem_singleton, List.not_mem_nil, or_false] at hf
    rcases hf with rfl | rfl
    · rfl
    · rw [UniquePtrArray.assignNull_eq_single]
  subst hf
  have hl := World.deref_lt hlive
  have hr := UniquePtr.assignNull_eq hlive
  by_cases hz : h.own_.first = nullptr
  · simp only [hz, ne_eq, not_true_eq_false, if_false] at hr
    refine ⟨_, { own_ := { first := nullptr, second := h.own_.second } }, hr, ?_, rfl, ?_, ?_,
      ?_, ?_, ?_, fun _ => rfl, fun _ => rfl⟩
    · simp [hl]
    · simp [UniquePtr.operatorBool, CompressedPair.GetFirst]
    · intro r hr
      simp [hr.symm]
    · exact fun hne => absurd hz hne
    · exact fun hne => absurd hz hne
    · exact fun hne => absurd hz hne
  · simp only [ne_eq, hz, not_false_eq_true, if_true] at hr
    refine ⟨_, { own_ := { first := nullptr,
                           second := Deleter.call h.own_.second h.own_.first h.own_.first } },
      hr, ?_, rfl, ?_, ?_, fun _ => rfl, fun _ => rfl, fun _ e => e, ?_, ?_⟩
    · simp [hl]
    · simp [UniquePtr.operatorBool, CompressedPair.GetFirst]
    · intro r hr
      simp [hr.symm]
    · exact fun he => absurd he hz
    · exact fun he => absurd he hz

/-- C11 at a concrete store: `H1 = nullptr` on `sampleWorld` calls deleter 2 on 9;
the deleter is one that a call does not change, and it is still 2 afterwards. -/
theorem null_assign_releases_and_empties_witness :
    ∃ w1 h1, UniquePtr.assignNull sampleWorld 1 = some w1 ∧ w1.deref 1 = some h1 ∧
      h1.Get = 0 ∧ h1.GetDeleter = 2 ∧
      w1.log = [{ handle := 1, deleter := 2, arg := 9, seen := 9 }] := by
  obtain ⟨w1, h1, h, hd, hg, _, _, hl, _, hdel, _⟩ :=
    null_assign_releases_and_empties sampleWorld 1 { own_ := { first := 9, second := 2 } }
      (by rfl) UniquePtr.assignNull (by simp)
  exact ⟨w1, h1, h, hd, hg, hdel (by decide) rfl, hl (by decide)⟩

/-- C11, as stated, fails: `H0 = nullptr` on `countWorld`, where handle 0 owns 7
through a counting deleter with count 0, leaves the handle with a deleter whose
count is 1. -/
theorem null_assign_changes_deleter :
    ∃ w1, UniquePtr.assignNull countWorld 0 = some w1 ∧
      (countWorld.deref 0).map UniquePtr.GetDeleter = some { count := 0 } ∧
      (w1.deref 0).map UniquePtr.GetDeleter = some { count := 1 } :=
  ⟨_, rfl, rfl, rfl⟩

/-- C12: in any state, for a non-null `A`, any `B` and any deleter `d`: constructing H
from `(A, d)`, move-constructing H2 from H and calling `H2.Reset(B)` all return, and
together they make exactly one deleter call, `d(A)` through H2; afterwards
`H2.Get()` is `B` and H is empty. -/
theorem move_then_reset_scenario [Deleter D] (mv : D → D) (w : World D) (A B : Ptr) (d : D)
    (hA : A ≠ nullptr) :
    ∃ h w1 h2 w2 w3, UniquePtr.ctor w A d = (h, w1) ∧
      UniquePtr.moveCtor mv w1 h = some (h2, w2) ∧
      UniquePtr.Reset w2 h2 B = some w3 ∧
      w3.log = w.log ++ [{ handle := h2, deleter := d, arg := A, seen := B }] ∧
      (∃ x, w3.deref h2 = some x ∧ x.Get = B ∧ x.GetDeleter = Deleter.call d A B) ∧
      (∃ y, w3.deref h = some y ∧ y.Get = nullptr ∧ y.operatorBool = false) := by
  have hd1 : (w.alloc { own_ := { first := A, second := d } }).2.deref w.handles.length
      = some { own_ := { first := A, second := d } } := by
    rw [World.deref_alloc]
    simp
  have hlen1 : (w.alloc { own_ := { first := A, second := d } }).2.handles.length
      = w.handles.length + 1 := by
    simp [World.alloc]
  generalize hw1 : (w.alloc { own_ := { first := A, second := d } }).2 = w1 at hd1 hlen1
  have hm := @UniquePtr.moveCtor_eq D mv _ _ _ hd1
  dsimp only at hm
  generalize hws : w1.store w.handles.length { own_ := { first := nullptr, second := mv d } }
    = ws at hm
  have hlens : ws.handles.length = w.handles.length + 1 := by
    rw [← hws, World.length_store, hlen1]
  have hds : ws.deref w.handles.length
      = some { own_ := { first := nullptr, second := mv d } } := by
    rw [← hws]
    simp [hlen1]
  have hlogs : ws.log = w.log := by
    rw [← hws, ← hw1]
    rfl
  have hd2 : (ws.alloc { own_ := { first := A, second := d } }).2.deref (w.handles.length + 1)
      = some { own_ := { first := A, second := d } } := by
    rw [World.deref_alloc]
    simp [hlens]
  have hd2' : (ws.alloc { own_ := { first := A, second := d } }).2.deref w.handles.length
      = some { own_ := { first := nullptr, second := mv d } } := by
    rw [World.deref_alloc]
    simp [hlens, hds]
  have hlen2 : (ws.alloc { own_ := { first := A, second := d } }).2.handles.length
      = w.handles.length + 2 := by
    simp [World.alloc, hlens]
  have hlog2 : (ws.alloc { own_ := { first := A, second := d } }).2.log = w.log := by
    rw [World.log_alloc, hlogs]
  generalize hw2 : (ws.alloc { own_ := { first := A, second := d } }).2 = w2
    at hd2 hd2' hlen2 hlog2
  have hr := UniquePtr.Reset_eq B hd2
  dsimp only at hr
  rw [if_pos hA] at hr
  refine ⟨w.handles.length, w1, w.handles.length + 1, w2, _, ?_, ?_, hr, ?_, ?_, ?_⟩
  · rw [← hw1]
    rfl
  · rw [hm, ← hw2]
    simp [World.alloc, hlens]
  · simp [hlog2]
  · refine ⟨{ own_ := { first := B, second := Deleter.call d A B } }, ?_, rfl, rfl⟩
    simp [hlen2]
  · refine ⟨{ own_ := { first := nullptr, second := mv d } }, ?_, rfl, ?_⟩
    · simp [hd2']
    · simp [UniquePtr.operatorBool, CompressedPair.GetFirst]

/-- C12 at a concrete input: `A = 7`, `B = 9`, deleter 1, in the empty state. -/
theorem move_then_reset_scenario_witness :
    ∃ h w1 h2 w2 w3, UniquePtr.ctor { handles := [], log := [] } 7 1 = (h, w1) ∧
      UniquePtr.moveCtor sampleMv w1 h = some (h2, w2) ∧
      UniquePtr.Reset w2 h2 9 = some w3 ∧
      w3.log = [{ handle := h2, deleter := 1, arg := 7, seen := 9 }] := by
  obtain ⟨h, w1, h2, w2, w3, e1, e2, e3, e4, _⟩ :=
    move_then_reset_scenario sampleMv { handles := [], log := [] } 7 9 1 (by decide)
  exact ⟨h, w1, h2, w2, w3, e1, e2, e3, e4⟩

/-- C13: on the same inputs, every member of the array specialization
(both constructors, both move constructors, move-assignment, null-assignment,
destructor, `Release`, `Reset`, `Swap`, `Get`, `GetDeleter`, boolean test) gives
the same result as the member of the single-object specialization: the same
returned value, the same resulting handles and the same log of deleter calls. -/
theorem specializations_share_state_machine [Deleter D] (mv conv : D → D) (dflt d : D) (w : World D)
    (this other : Ref) (p : Ptr) (h : UniquePtr D) :
    UniquePtrArray.ctorDefault dflt w p = UniquePtr.ctorDefault dflt w p ∧
    UniquePtrArray.ctor w p d = UniquePtr.ctor w p d ∧
    UniquePtrArray.moveCtor mv w other = UniquePtr.moveCtor mv w other ∧
    UniquePtrArray.moveCtorFrom mv conv w other = UniquePtr.moveCtorFrom mv conv w other ∧
    UniquePtrArray.moveAssign mv w this other = UniquePtr.moveAssign mv w this other ∧
    UniquePtrArray.assignNull w this = UniquePtr.assignNull w this ∧
    UniquePtrArray.dtor w this = UniquePtr.dtor w this ∧
    UniquePtrArray.Release w this = UniquePtr.Release w this ∧
    UniquePtrArray.Reset w this p = UniquePtr.Reset w this p ∧
    UniquePtrArray.Swap w this other = UniquePtr.Swap w this other ∧
    UniquePtrArray.Get h = UniquePtr.Get h ∧
    UniquePtrArray.GetDeleter h = UniquePtr.GetDeleter h ∧
    UniquePtrArray.operatorBool h = UniquePtr.operatorBool h :=
  ⟨rfl, rfl, rfl, rfl, rfl, rfl, rfl, rfl, rfl, rfl, rfl, rfl, rfl⟩

/-! ## Indexed access and the observers -/

theorem toInt32_of_range {i : Int} (h0 : -(2 ^ 31) ≤ i) (h1 : i < 2 ^ 31) : toInt32 i = i := by
  unfold toInt32
  omega

theorem toNat_offset (p : Nat) {i : Int} (hi : 0 ≤ i) :
    ((p : Int) + i).toNat = p + i.toNat := by
  omega

theorem offset_ne (p : Nat) {i j : Int} (hi : 0 ≤ i) (hj : 0 ≤ j) (hne : j ≠ i) :
    p + j.toNat ≠ p + i.toNat := by
  omega

theorem offset_lt (p n : Nat) {i : Int} (hi : 0 ≤ i) (hin : i < n) :
    p + i.toNat < p + n := by
  omega

theorem UniquePtrArray.operatorIndex_eq (h : UniquePtr D) {i : Int} (hi : 0 ≤ i)
    (h32 : i < 2 ^ 31) : UniquePtrArray.operatorIndex h i = h.own_.first + i.toNat := by
  unfold UniquePtrArray.operatorIndex
  rw [toInt32_of_range (by omega) h32]
  exact toNat_offset _ hi

/-- C14, as amended: let the live array handle H own (non-null pointer) an array of
`n` elements and let `i` be an in-bounds index that the 32-bit parameter `int i`
can hold. The statement `H[i] = v` returns; it writes the cell `i` elements after
H's pointer, which lies inside the array, and no other cell; afterwards reading
`H[i]` yields `v` and reading `H[j]`, for every other in-bounds `j` that an `int`
can hold, yields the value it had before. H's pointer and deleter and the log of
deleter calls are unchanged, and destroying H makes exactly one deleter call, on
H's pointer. -/
theorem indexed_write_touches_one_slot [Deleter D] {T : Type} (w : World D) (m : Mem T)
    (this : Ref) (h : UniquePtr D) (n : Nat) (i : Int) (v : T)
    (hlive : w.deref this = some h) (hown : h.Get ≠ nullptr) (hi0 : 0 ≤ i) (hin : i < n)
    (hi32 : i < 2 ^ 31) :
    ∃ w1 m1, UniquePtrArray.indexWrite w m this i v = some (w1, m1) ∧
      UniquePtrArray.indexRead w1 m1 this i = some v ∧
      (∀ j : Int, 0 ≤ j → j < n → j < 2 ^ 31 → j ≠ i →
        UniquePtrArray.indexRead w1 m1 this j = UniquePtrArray.indexRead w m this j) ∧
      (∀ j : Int, 0 ≤ j → j < n → j < 2 ^ 31 →
        UniquePtrArray.indexRead w m this j = some (m (h.Get + j.toNat))) ∧
      UniquePtrArray.operatorIndex h i = h.Get + i.toNat ∧
      h.Get + i.toNat < h.Get + n ∧
      m1 (h.Get + i.toNat) = v ∧
      (∀ a, a ≠ h.Get + i.toNat → m1 a = m a) ∧
      w1 = w ∧ w1.deref this = some h ∧ w1.log = w.log ∧
      ∃ w2, UniquePtrArray.dtor w1 this = some w2 ∧ w2.deref this = none ∧
        w2.log = w.log ++
          [{ handle := this, deleter := h.GetDeleter, arg := h.Get, seen := h.Get }] := by
  have hidx := UniquePtrArray.operatorIndex_eq h hi0 hi32
  have hidx2 : UniquePtrArray.operatorIndex h i = h.Get + i.toNat := hidx
  refine ⟨w, m.write (UniquePtrArray.operatorIndex h i) v, ?_, ?_, ?_, ?_, hidx2, ?_, ?_, ?_,
    rfl, hlive, rfl, ?_⟩
  · simp [UniquePtrArray.indexWrite, hlive]
  · simp [UniquePtrArray.indexRead, hlive, Mem.write]
  · intro j hj0 _ hj32 hji
    have hj := UniquePtrArray.operatorIndex_eq h hj0 hj32
    have hne : UniquePtrArray.operatorIndex h j ≠ UniquePtrArray.operatorIndex h i := by
      rw [hj, hidx]
      exact offset_ne _ hi0 hj0 hji
    simp [UniquePtrArray.indexRead, hlive, Mem.write, hne]
  · intro j hj0 _ hj32
    have hj : UniquePtrArray.operatorIndex h j = h.Get + j.toNat :=
      UniquePtrArray.operatorIndex_eq h hj0 hj32
    simp [UniquePtrArray.indexRead, hlive, hj]
  · exact offset_lt _ n hi0 hin
  · rw [← hidx2]
    simp [Mem.write]
  · intro a ha
    rw [← hidx2] at ha
    simp [Mem.write, ha]
  · have hz : h.own_.first ≠ nullptr := hown
    refine ⟨_, UniquePtr.dtor_eq hlive, ?_, ?_⟩
    · simp
    · simp [hz, UniquePtr.Get, UniquePtr.GetDeleter, CompressedPair.GetFirst,
        CompressedPair.GetSecond]

/-- C14 at the concrete input of the scenario: five elements, `H[2] = 7`. -/
theorem indexed_write_touches_one_slot_witness :
    ∃ w1 m1, UniquePtrArray.indexWrite arrayWorld zeroMem 0 2 7 = some (w1, m1) ∧
      UniquePtrArray.indexRead w1 m1 0 2 = some 7 ∧
      UniquePtrArray.indexRead w1 m1 0 0 = some 0 ∧
      UniquePtrArray.indexRead w1 m1 0 1 = some 0 ∧
      UniquePtrArray.indexRead w1 m1 0 3 = some 0 ∧
      UniquePtrArray.indexRead w1 m1 0 4 = some 0 ∧
      m1 102 = 7 ∧
      ∃ w2, UniquePtrArray.dtor w1 0 = some w2 ∧
        w2.log = [{ handle := 0, deleter := 1, arg := 100, seen := 100 }] := by
  obtain ⟨w1, m1, h, hr, hj, _, _, _, hm, _, _, _, _, w2, hd, _, hl⟩ :=
    indexed_write_touches_one_slot arrayWorld zeroMem 0
      { own_ := { first := 100, second := 1 } } 5 2 7 (by rfl) (by decide)
      (by decide) (by decide) (by decide)
  refine ⟨w1, m1, h, hr, ?_, ?_, ?_, ?_, hm, w2, hd, hl⟩
  · rw [hj 0 (by decide) (by decide) (by decide) (by decide)]
    rfl
  · rw [hj 1 (by decide) (by decide) (by decide) (by decide)]
    rfl
  · rw [hj 3 (by decide) (by decide) (by decide) (by decide)]
    rfl
  · rw [hj 4 (by decide) (by decide) (by decide) (by decide)]
    rfl

/-- C14, as stated, fails: for an array of `2^33` elements at address 100 the index
`2^32 + 2` is in bounds, but the 32-bit parameter `int i` receives 2, so
`H[2^32 + 2] = 7` writes the cell of `H[2]`: reading `H[2]`, another in-bounds
index, yielded 0 before and yields 7 afterwards. -/
theorem indexed_write_wraps_wide_index :
    ((0 : Int) ≤ 4294967298 ∧ (4294967298 : Int) < 8589934592 ∧
      (0 : Int) ≤ 2 ∧ (2 : Int) < 8589934592 ∧ (2 : Int) ≠ 4294967298) ∧
    UniquePtrArray.indexRead arrayWorld zeroMem 0 2 = some 0 ∧
    ∃ w1 m1, UniquePtrArray.indexWrite arrayWorld zeroMem 0 4294967298 7 = some (w1, m1) ∧
      UniquePtrArray.indexRead w1 m1 0 2 = some 7 := by
  refine ⟨by decide, rfl, arrayWorld,
    zeroMem.write (UniquePtrArray.operatorIndex { own_ := { first := 100, second := 1 } }
      4294967298) 7, rfl, ?_⟩
  decide

/-- C15: for a live handle H (both specializations) the boolean test is true
exactly when `Get()` is non-null, and calling the boolean test or `Get()` returns
the value computed from H and leaves the state as it was: same handles, same log
of deleter calls. -/
theorem bool_test_reflects_ownership (w : World D) (this : Ref) (h : UniquePtr D)
    (hlive : w.deref this = some h) :
    (h.operatorBool = true ↔ h.Get ≠ nullptr) ∧
    (UniquePtrArray.operatorBool h = true ↔ UniquePtrArray.Get h ≠ nullptr) ∧
    w.callConst UniquePtr.operatorBool this = some (h.operatorBool, w) ∧
    w.callConst UniquePtr.Get this = some (h.Get, w) ∧
    w.callConst UniquePtrArray.operatorBool this = some (h.operatorBool, w) ∧
    w.callConst UniquePtrArray.Get this = some (h.Get, w) := by
  refine ⟨?_, ?_, ?_, ?_, ?_, ?_⟩
  · simp [UniquePtr.operatorBool, UniquePtr.Get]
  · simp [UniquePtrArray.operatorBool, UniquePtrArray.Get]
  · simp [World.callConst, hlive]
  · simp [World.callConst, hlive]
  · simp [World.callConst, hlive, UniquePtrArray.operatorBool, UniquePtr.operatorBool]
  · simp [World.callConst, hlive, UniquePtrArray.Get, UniquePtr.Get]

/-- C15 at a concrete store: handle 0 of `sampleWorld` owns, handle 2 is empty. -/
theorem bool_test_reflects_ownership_witness :
    sampleWorld.callConst UniquePtr.operatorBool 0 = some (true, sampleWorld) ∧
    sampleWorld.callConst UniquePtr.operatorBool 2 = some (false, sampleWorld) ∧
    sampleWorld.callConst UniquePtr.Get 0 = some (7, sampleWorld) :=
  ⟨(bool_test_reflects_ownership sampleWorld 0
      { own_ := { first := 7, second := 1 } } (by rfl)).2.2.1,
   (bool_test_reflects_ownership sampleWorld 2
      { own_ := { first := 0, second := 3 } } (by rfl)).2.2.1,
   (bool_test_reflects_ownership sampleWorld 0
      { own_ := { first := 7, second := 1 } } (by rfl)).2.2.2.1⟩

/-! ## Order of effects in `Reset` and its relatives -/

/-- C17: `Reset(p2)` on a live handle H that owns a non-null `p1` is the write of
`p2` into H followed by the deleter call made in the state after that write: the
one call has argument `p1`, and at the moment of the call H stores `p2` (the
observation `seen`), which is not `p1` unless `p2` and `p1` are the same address. -/
theorem reset_updates_before_release [Deleter D] (w : World D) (this : Ref) (p2 : Ptr)
    (h : UniquePtr D) (hlive : w.deref this = some h) (hown : h.Get ≠ nullptr) :
    ∀ f ∈ [@UniquePtr.Reset D _, @UniquePtrArray.Reset D _],
    ∃ wmid w1 c, w.setFirst this p2 = some wmid ∧
      (wmid.deref this).map UniquePtr.Get = some p2 ∧ wmid.log = w.log ∧
      wmid.invoke this h.Get = some w1 ∧
      f w this p2 = some w1 ∧ w1.log = w.log ++ [c] ∧
      c.handle = this ∧ c.deleter = h.GetDeleter ∧ c.arg = h.Get ∧ c.seen = p2 ∧
      (p2 ≠ h.Get → c.seen ≠ h.Get) := by
  intro f hf
  have hf : f = UniquePtr.Reset := by
    simp only [List.mem_cons, List.mem_singleton, List.not_mem_nil, or_false] at hf
    rcases hf with rfl | rfl
    · rfl
    · rw [UniquePtrArray.Reset_eq_single]
  subst hf
  have hl := World.deref_lt hlive
  have hz : h.own_.first ≠ nullptr := hown
  have hr := UniquePtr.Reset_eq p2 hlive
  rw [if_pos hz] at hr
  refine ⟨w.store this { own_ := { first := p2, second := h.own_.second } }, _,
    Call.mk this h.own_.second h.own_.first p2, ?_, ?_, rfl, ?_, hr, rfl, rfl, rfl, rfl, rfl,
    fun hne => hne⟩
  · simp [World.setFirst, hlive]
  · simp [hl, UniquePtr.Get, CompressedPair.GetFirst]
  · simp [World.invoke, hl, UniquePtr.Get, CompressedPair.GetFirst, CompressedPair.GetSecond,
      World.store_record]

/-- C17 at a concrete store: during `H0.Reset(5)` on `sampleWorld` the deleter is
called on 7 while the handle already stores 5. -/
theorem reset_updates_before_release_witness :
    ∃ w1, UniquePtr.Reset sampleWorld 0 5 = some w1 ∧
      w1.log.map (fun c => (c.arg, c.seen)) = [(7, 5)] := by
  obtain ⟨_, w1, c, _, _, _, _, h, hl, _, _, ha, hs, _⟩ :=
    reset_updates_before_release sampleWorld 0 5 { own_ := { first := 7, second := 1 } }
      (by rfl) (by decide) UniquePtr.Reset (by simp)
  refine ⟨w1, h, ?_⟩
  rw [hl]
  simp only [sampleWorld, List.nil_append, List.map_cons, List.map_nil, ha, hs]
  rfl

/-- C18: when the live handles `this` (T) and `other` (S) are both empty,
`T = move(S)` (both specializations) returns and changes nothing: T keeps its own
deleter (S's deleter is not adopted), both handles stay empty and no deleter call
is made. -/
theorem move_assign_between_empties [Deleter D] (mv : D → D) (w : World D) (this other : Ref)
    (t s : UniquePtr D) (hthis : w.deref this = some t) (hother : w.deref other = some s)
    (ht : t.Get = nullptr) (hs : s.Get = nullptr) :
    ∀ f ∈ [UniquePtr.moveAssign mv, UniquePtrArray.moveAssign mv],
    ∃ w1, f w this other = some w1 ∧ w1 = w ∧
      (∃ t1, w1.deref this = some t1 ∧ t1.GetDeleter = t.GetDeleter ∧ t1.Get = nullptr) ∧
      (∃ s1, w1.deref other = some s1 ∧ s1.GetDeleter = s.GetDeleter ∧ s1.Get = nullptr) ∧
      w1.log = w.log := by
  intro f hf
  have hf : f = UniquePtr.moveAssign mv := by
    simp only [List.mem_cons, List.mem_singleton, List.not_mem_nil, or_false] at hf
    rcases hf with rfl | rfl
    · rfl
    · rw [UniquePtrArray.moveAssign_eq_single]
  subst hf
  have he : t.own_.first = s.own_.first := by
    have h1 : t.own_.first = nullptr := ht
    have h2 : s.own_.first = nullptr := hs
    rw [h1, h2]
  exact ⟨w, UniquePtr.moveAssign_same hthis hother he, rfl, ⟨t, hthis, rfl, ht⟩,
    ⟨s, hother, rfl, hs⟩, rfl⟩

/-- C18 at a concrete store: `H0 = move(H1)` on `emptiesWorld` leaves deleter 1 in
handle 0 although handle 1 carries deleter 2. -/
theorem move_assign_between_empties_witness :
    ∃ w1, UniquePtr.moveAssign sampleMv emptiesWorld 0 1 = some w1 ∧
      (w1.deref 0).map UniquePtr.GetDeleter = some 1 ∧
      (w1.deref 1).map UniquePtr.GetDeleter = some 2 := by
  obtain ⟨w1, h, hw, _⟩ :=
    move_assign_between_empties sampleMv emptiesWorld 0 1
      { own_ := { first := 0, second := 1 } } { own_ := { first := 0, second := 2 } }
      (by rfl) (by rfl) (by rfl) (by rfl) (UniquePtr.moveAssign sampleMv) (by simp)
  subst hw
  exact ⟨_, h, by rfl, by rfl⟩

/-- C19: for a live handle H that owns a non-null `p` with deleter `d`,
`H.Reset(H.Get())` returns after one deleter call `d(p)` and leaves H holding `p`
(with `d` as that call left it); destroying H afterwards returns after a second
call on `p` through H, so `p` has been passed to the deleter twice. -/
theorem reset_to_own_pointer_releases_twice [Deleter D] (w : World D) (this : Ref)
    (h : UniquePtr D) (hlive : w.deref this = some h) (hown : h.Get ≠ nullptr) :
    ∃ w1 w2, UniquePtr.Reset w this h.Get = some w1 ∧
      w1.deref this = some
        { own_ := { first := h.Get, second := Deleter.call h.GetDeleter h.Get h.Get } } ∧
      w1.log = w.log ++
        [{ handle := this, deleter := h.GetDeleter, arg := h.Get, seen := h.Get }] ∧
      UniquePtr.dtor w1 this = some w2 ∧
      w2.log = w.log ++
        [{ handle := this, deleter := h.GetDeleter, arg := h.Get, seen := h.Get },
         { handle := this, deleter := Deleter.call h.GetDeleter h.Get h.Get, arg := h.Get,
           seen := h.Get }] ∧
      w2.releases h.Get = w.releases h.Get + 2 := by
  have hl := World.deref_lt hlive
  have hz : h.own_.first ≠ nullptr := hown
  have hr := UniquePtr.Reset_eq h.own_.first hlive
  rw [if_pos hz] at hr
  have hd1 : ((w.store this
      { own_ := { first := h.own_.first,
                  second := Deleter.call h.own_.second h.own_.first h.own_.first } }).record
      (Call.mk this h.own_.second h.own_.first h.own_.first)).deref this
      = some { own_ := { first := h.own_.first,
                         second := Deleter.call h.own_.second h.own_.first h.own_.first } } := by
    simp [hl]
  have hd := UniquePtr.dtor_eq hd1
  dsimp only at hd
  rw [if_pos hz] at hd
  refine ⟨_, _, hr, hd1, rfl, hd, ?_, ?_⟩
  · simp [UniquePtr.Get, UniquePtr.GetDeleter, CompressedPair.GetFirst,
      CompressedPair.GetSecond]
  · simp [World.releases, World.record, World.free, World.store, UniquePtr.Get,
      CompressedPair.GetFirst, List.countP_cons]

/-- C19 at a concrete store: `H0.Reset(7)` on `sampleWorld`, then the destructor of
handle 0, call deleter 1 on 7 twice. -/
theorem reset_to_own_pointer_releases_twice_witness :
    ∃ w1 w2, UniquePtr.Reset sampleWorld 0 7 = some w1 ∧
      UniquePtr.dtor w1 0 = some w2 ∧ w2.releases 7 = 2 := by
  obtain ⟨w1, w2, h1, _, _, h2, _, h3⟩ :=
    reset_to_own_pointer_releases_twice sampleWorld 0
      { own_ := { first := 7, second := 1 } } (by rfl) (by decide)
  exact ⟨w1, w2, h1, h2, h3⟩

/-- C20, as amended: on a live handle H with pointer `p` and deleter `d`,
`H = nullptr` and `H.Reset(nullptr)` both return; they leave every handle with the
same pointer (H with null), touch no other handle, and make the same deleter calls
(same handle, deleter and argument, in the same number). When `p` is non-null each
makes one call, and the two calls differ only in what H stores at that moment: `p`
for the assignment, null for `Reset`; H's deleter is then `d` as its call left it,
so the two final deleters, and the two final states of the handles, are equal
whenever the outcome of the call does not depend on what H stores during it. When
`p` is null no call is made and the resulting states are equal. -/
theorem null_assign_and_reset_null_agree [Deleter D] (w : World D) (this : Ref)
    (h : UniquePtr D) (hlive : w.deref this = some h) :
    ∃ w1 w2 a b, UniquePtr.assignNull w this = some w1 ∧
      UniquePtr.Reset w this nullptr = some w2 ∧
      w1.deref this = some a ∧ w2.deref this = some b ∧
      a.Get = nullptr ∧ b.Get = nullptr ∧
      (∀ r, r ≠ this → w1.deref r = w.deref r ∧ w2.deref r = w.deref r) ∧
      w1.log.map Call.invocation = w2.log.map Call.invocation ∧
      (h.Get ≠ nullptr → ∃ c1 c2, w1.log = w.log ++ [c1] ∧ w2.log = w.log ++ [c2] ∧
        c1.invocation = c2.invocation ∧ c1.arg = h.Get ∧
        c1.seen = h.Get ∧ c2.seen = nullptr) ∧
      (h.Get ≠ nullptr → a.GetDeleter = Deleter.call h.GetDeleter h.Get h.Get ∧
        b.GetDeleter = Deleter.call h.GetDeleter h.Get nullptr) ∧
      (h.Get ≠ nullptr →
        Deleter.call h.GetDeleter h.Get h.Get = Deleter.call h.GetDeleter h.Get nullptr →
        a.GetDeleter = b.GetDeleter ∧ w1.handles = w2.handles) ∧
      (h.Get = nullptr → a.GetDeleter = h.GetDeleter ∧ b.GetDeleter = h.GetDeleter ∧
        w1 = w2 ∧ w1.log = w.log) := by
  have hl := World.deref_lt hlive
  have h1 := UniquePtr.assignNull_eq hlive
  have h2 := UniquePtr.Reset_eq nullptr hlive
  by_cases hz : h.own_.first = nullptr
  · simp only [hz, ne_eq, not_true_eq_false, if_false] at h1 h2
    refine ⟨_, _, { own_ := { first := nullptr, second := h.own_.second } },
      { own_ := { first := nullptr, second := h.own_.second } }, h1, h2, ?_, ?_, rfl, rfl, ?_,
      rfl, ?_, ?_, ?_, ?_⟩
    · simp [hl]
    · simp [hl]
    · intro r hr
      simp [hr.symm]
    · exact fun hne => absurd hz hne
    · exact fun hne => absurd hz hne
    · exact fun hne => absurd hz hne
    · intro _
      exact ⟨rfl, rfl, rfl, rfl⟩
  · simp only [ne_eq, hz, not_false_eq_true, if_true] at h1 h2
    refine ⟨_, _,
      { own_ := { first := nullptr,
                  second := Deleter.call h.own_.second h.own_.first h.own_.first } },
      { own_ := { first := nullptr,
                  second := Deleter.call h.own_.second h.own_.first nullptr } },
      h1, h2, ?_, ?_, rfl, rfl, ?_, ?_, ?_, ?_, ?_, ?_⟩
    · simp [hl]
    · simp [hl]
    · intro r hr
      simp [hr.symm]
    · simp [Call.invocation]
    · intro _
      exact ⟨Call.mk this h.own_.second h.own_.first h.own_.first,
        Call.mk this h.own_.second h.own_.first nullptr, rfl, rfl, rfl, rfl, rfl, rfl⟩
    · intro _
      exact ⟨rfl, rfl⟩
    · intro _ he
      have he : Deleter.call h.own_.second h.own_.first h.own_.first
          = Deleter.call h.own_.second h.own_.first nullptr := he
      refine ⟨he, ?_⟩
      simp [World.store, World.record, he]
    · intro he
      exact absurd he hz

/-- C20 at a concrete store: `H1 = nullptr` and `H1.Reset(nullptr)` on
`sampleWorld`, whose deleters are not changed by a call. -/
theorem null_assign_and_reset_null_agree_witness :
    ∃ w1 w2, UniquePtr.assignNull sampleWorld 1 = some w1 ∧
      UniquePtr.Reset sampleWorld 1 0 = some w2 ∧
      w1.handles = w2.handles ∧
      w1.log.map Call.invocation = w2.log.map Call.invocation := by
  obtain ⟨w1, w2, _, _, h1, h2, _, _, _, _, _, h4, _, _, h5, _⟩ :=
    null_assign_and_reset_null_agree sampleWorld 1
      { own_ := { first := 9, second := 2 } } (by rfl)
  exact ⟨w1, w2, h1, h2, (h5 (by decide) rfl).2, h4⟩

/-- C20, as stated, fails: on `obsWorld`, where handle 0 owns 7 through a deleter
that records what its handle stores while it is called, `H0 = nullptr` leaves the
deleter with 7 and `H0.Reset(nullptr)` leaves it with null: the final deleters
differ. -/
theorem null_assign_and_reset_null_differ :
    ∃ w1 w2, UniquePtr.assignNull obsWorld 0 = some w1 ∧
      UniquePtr.Reset obsWorld 0 nullptr = some w2 ∧
      (w1.deref 0).map UniquePtr.GetDeleter = some { observed := 7 } ∧
      (w2.deref 0).map UniquePtr.GetDeleter = some { observed := 0 } ∧
      w1.handles ≠ w2.handles :=
  ⟨_, _, rfl, rfl, rfl, rfl, by decide⟩

end UniquePointer
